import Mathlib

/-!
Verification of the CIRCT operation-scheduling core and the Comb SMT
serializers, against their natural-language specification.

The scheduling engine (Problem model, ASAP list scheduler, simplex-based
LP variants) is embedded shallowly: the Problem data model and the ASAP
algorithm are executable definitions, and the simplex-based variants are
characterised declaratively by the constraint systems the specification
prescribes.  A theory of walks and a Bellman-Ford-style iteration over
difference constraints settles the initiation-interval claims.
-/

namespace CirctSpec

/-- An operator type: `latency` in cycles, and an optional `limit` on the
number of concurrently running operations of this type. -/
structure OperatorType where
  latency : Nat
  limit : Option Nat
deriving DecidableEq

/-- A dependence edge between two operations (identified by their handle,
i.e. their registration index), with an iteration `distance`. -/
structure Dependence where
  src : Nat
  dst : Nat
  distance : Nat
deriving DecidableEq

/-- Modelled from the spec: the scheduling `Problem` container (the C++
implementation in `lib/Scheduling` is not part of the sources at hand, only
its interface `Scheduling/Algorithms.h`).  Operator types and operations are
registered in insertion order and referenced by index; each operation is
linked to one operator type; dependences reference operations by index. -/
structure Problem where
  opTypes : List OperatorType
  linkedOpr : List Nat
  deps : List Dependence
deriving DecidableEq

/-- Number of registered operations. -/
def numOps (p : Problem) : Nat := p.linkedOpr.length

/-- The operator type index linked to operation `v`. -/
def oprOf (p : Problem) (v : Nat) : Nat := p.linkedOpr.getD v 0

/-- The operator type record of operation `v` (a zero-latency, unlimited
dummy if out of range; validation excludes that case). -/
def oprTypeOf (p : Problem) (v : Nat) : OperatorType :=
  p.opTypes.getD (oprOf p v) ⟨0, none⟩

/-- The latency of operation `v`. -/
def latOf (p : Problem) (v : Nat) : Nat := (oprTypeOf p v).latency

/-- The resource limit of operation `v`'s operator type. -/
def limitOf (p : Problem) (v : Nat) : Option Nat := (oprTypeOf p v).limit

/-- Structural well-formedness of a problem: every dependence endpoint is a
registered operation and every operation's operator type is registered. -/
def WellFormed (p : Problem) : Prop :=
  (∀ d ∈ p.deps, d.src < numOps p ∧ d.dst < numOps p) ∧
  (∀ v < numOps p, oprOf p v < p.opTypes.length)

/-- Modelled from the spec: the kinds of `MalformedProblem` validation
failures, each identifying the offending entity. -/
inductive ValidationError where
  | danglingOperation (handle : Nat)
  | unregisteredOperatorType (op : Nat)
deriving DecidableEq

/-- Modelled from the spec: `validate` checks the structural invariants of a
`Problem` and reports the first violated one, naming the offending entity
(`none` means the problem is well-formed). -/
def validate (p : Problem) : Option ValidationError :=
  match p.deps.find? (fun d => decide (numOps p ≤ d.src)) with
  | some d => some (.danglingOperation d.src)
  | none =>
    match p.deps.find? (fun d => decide (numOps p ≤ d.dst)) with
    | some d => some (.danglingOperation d.dst)
    | none =>
      match (List.range (numOps p)).find? (fun v => decide (p.opTypes.length ≤ oprOf p v)) with
      | some v => some (.unregisteredOperatorType v)
      | none => none

end CirctSpec

namespace CombSMT

/-- The comparison predicates of `comb.icmp`. -/
inductive ICmpPredicate where
  | eq | ne | slt | sle | sgt | sge | ult | ule | ugt | uge
deriving DecidableEq

/-- The text the `switch` in `ICmpOp::serializeExpression` writes before the
operands, or `none` for the unsupported (unsigned) predicates. -/
def cmpOpener : ICmpPredicate → Option String
  | .eq => some "(= "
  | .ne => some "(not (= "
  | .sge => some "(>= "
  | .sgt => some "(> "
  | .sle => some "(<= "
  | .slt => some "(< "
  | _ => none

/-- Whether a predicate is one of the unsigned comparisons. -/
def isUnsignedPred : ICmpPredicate → Bool
  | .ult | .ule | .ugt | .uge => true
  | _ => false

/-- `ICmpOp::serializeExpression`.  The recursive serialization of the two
operands is abstracted by `l` and `r` (`none` = that operand's serialization
fails, `some s` = it succeeds writing `s`).  The result is the text written
to the output stream together with the success flag, mirroring the control
flow of the source: the opener is written first, then the operands with a
separating space, then the closing parentheses (one extra for `ne`); the
unsupported default case emits an error before anything is written. -/
def serializeExpression (pred : ICmpPredicate) (l r : Option String) :
    String × Bool :=
  match cmpOpener pred with
  | none => ("", false)
  | some pre =>
    match l with
    | none => (pre, false)
    | some ls =>
      match r with
      | none => (pre ++ ls ++ " ", false)
      | some rs =>
        (pre ++ ls ++ " " ++ rs ++ ")" ++ (if pred = .ne then ")" else ""),
         true)

/-- The SMT-LIB rendering of a supported comparison: `ne` is the negation of
the equality form (see `claim10_icmp_serialize`). -/
def smtComparison (pred : ICmpPredicate) (ls rs : String) : String :=
  match pred with
  | .ne => "(not (= " ++ ls ++ " " ++ rs ++ ")" ++ ")"
  | .eq => "(= " ++ ls ++ " " ++ rs ++ ")"
  | .sge => "(>= " ++ ls ++ " " ++ rs ++ ")"
  | .sgt => "(> " ++ ls ++ " " ++ rs ++ ")"
  | .sle => "(<= " ++ ls ++ " " ++ rs ++ ")"
  | .slt => "(< " ++ ls ++ " " ++ rs ++ ")"
  | _ => ""

end CombSMT

namespace CirctSpec

/-- The dependences entering operation `v`. -/
def incoming (p : Problem) (v : Nat) : List Dependence :=
  p.deps.filter (fun d => decide (d.dst = v))

/-- The earliest start of `v` permitted by its already-scheduled predecessors:
`max(0, max over incoming dependences of start(src) + latency(src))`. -/
def asapBound (p : Problem) (st : Nat → Option Nat) (v : Nat) : Nat :=
  (incoming p v).foldr (fun d acc => max acc ((st d.src).getD 0 + latOf p d.src)) 0

/-- Whether all predecessors of `v` have been scheduled. -/
def allPredsScheduled (p : Problem) (st : Nat → Option Nat) (v : Nat) : Bool :=
  (incoming p v).all (fun d => (st d.src).isSome)

/-- Modelled from the spec: one pass of the ASAP list scheduler
(`scheduleASAP` in `lib/Scheduling/ASAPScheduler.cpp`, absent from the
sources at hand): every still-unscheduled operation whose predecessors are
all scheduled receives its earliest feasible start time. -/
def asapStep (p : Problem) (st : Nat → Option Nat) : Nat → Option Nat :=
  fun v =>
    if v < numOps p then
      match st v with
      | some s => some s
      | none =>
        if allPredsScheduled p st v then some (asapBound p st v) else none
    else none

/-- `k` passes of the ASAP scheduler, starting from the empty schedule. -/
def asapIter (p : Problem) : Nat → Nat → Option Nat
  | 0, _ => none
  | k + 1, v => asapStep p (asapIter p k) v

/-- Modelled from the spec: `scheduleASAP`.  After `numOps` passes every
operation is scheduled unless the dependence graph has a cycle; on success
the start times are returned in operation order, otherwise the algorithm
fails (`CyclicDependence`). -/
def scheduleASAP (p : Problem) : Option (List Nat) :=
  if (List.range (numOps p)).all (fun v => (asapIter p (numOps p) v).isSome) then
    some ((List.range (numOps p)).map (fun v => (asapIter p (numOps p) v).getD 0))
  else none

/-- A schedule (as a total function) satisfying every precedence constraint
of the basic problem: `start(dst) ≥ start(src) + latency(src)` for each
dependence. -/
def feasibleBasic (p : Problem) (x : Nat → Nat) : Prop :=
  ∀ d ∈ p.deps, x d.src + latOf p d.src ≤ x d.dst

/-- Modelled from the spec: the basic simplex variant
(`scheduleSimplex(Problem&, Operation*)`, implementation absent from the
sources at hand) returns a schedule satisfying all precedence constraints
and minimizing the start time of `lastOp`. -/
def basicSimplexSolves (p : Problem) (lastOp : Nat) (x : Nat → Nat) : Prop :=
  feasibleBasic p x ∧ ∀ y, feasibleBasic p y → x lastOp ≤ y lastOp

/-- A schedule satisfying every constraint of the cyclic problem at
initiation interval `II`: for each dependence,
`start(src) + latency(src) ≤ start(dst) + II * distance`. -/
def cyclicFeasible (p : Problem) (II : Nat) (x : Nat → Nat) : Prop :=
  ∀ d ∈ p.deps, x d.src + latOf p d.src ≤ x d.dst + II * d.distance

/-- Modelled from the spec: the cyclic simplex variant
(`scheduleSimplex(CyclicProblem&, Operation*)`, implementation absent from
the sources at hand) determines the smallest feasible positive initiation
interval and, for that interval, a feasible schedule minimizing the start
time of `lastOp`. -/
def cyclicSimplexSolves (p : Problem) (lastOp : Nat) (II : Nat) (x : Nat → Nat) :
    Prop :=
  1 ≤ II ∧ cyclicFeasible p II x ∧
  (∀ II' x', 1 ≤ II' → cyclicFeasible p II' x' → II ≤ II') ∧
  (∀ x', cyclicFeasible p II x' → x lastOp ≤ x' lastOp)

/-- `IsWalkFrom p u v es`: the dependence list `es` forms a walk in the
dependence graph of `p` from operation `u` to operation `v`. -/
def IsWalkFrom (p : Problem) : Nat → Nat → List Dependence → Prop
  | u, v, [] => u = v
  | u, v, d :: es => d ∈ p.deps ∧ d.src = u ∧ IsWalkFrom p d.dst v es

/-- A cycle in the dependence graph: a nonempty closed walk. -/
def IsCycle (p : Problem) (es : List Dependence) : Prop :=
  es ≠ [] ∧ ∃ u, IsWalkFrom p u u es

/-- Sum of the latencies along a walk (the latency of each edge's source). -/
def latSum (p : Problem) (es : List Dependence) : Nat :=
  (es.map (fun d => latOf p d.src)).sum

/-- Sum of the distances along a walk. -/
def distSum (es : List Dependence) : Nat :=
  (es.map (fun d => d.distance)).sum

/-- Sum of an arbitrary integer edge weight along a walk. -/
def weightW (w : Dependence → Int) (es : List Dependence) : Int :=
  (es.map w).sum

/-- The vertices visited by a walk starting at `u`. -/
def trace (u : Nat) (es : List Dependence) : List Nat :=
  u :: es.map (fun d => d.dst)

/-- Ceiling division on naturals. -/
def ceilDivNat (a b : Nat) : Nat := (a + b - 1) / b

/-- `ceil(latSum / distSum)` for a cycle: its contribution to the classical
minimum-II bound. -/
def ceilRatio (p : Problem) (es : List Dependence) : Nat :=
  ceilDivNat (latSum p es) (distSum es)

/-- The difference-constraint weight of a dependence in the cyclic problem at
initiation interval `II`: `latency(src) - II * distance`. -/
def cyclicWeight (p : Problem) (II : Nat) (d : Dependence) : Int :=
  (latOf p d.src : Int) - (II : Int) * (d.distance : Int)

/-- One Bellman-Ford-style relaxation round for the longest-walk values of a
weighted dependence graph. -/
def relaxW (p : Problem) (w : Dependence → Int) (f : Nat → Int) : Nat → Int :=
  fun v => p.deps.foldr (fun d acc => if d.dst = v then max acc (f d.src + w d) else acc) (f v)

/-- `bf p w k v` is the largest weight of a walk with at most `k` edges
ending at `v` (0 for the empty walk; walks may start anywhere). -/
def bf (p : Problem) (w : Dependence → Int) : Nat → Nat → Int
  | 0, _ => 0
  | k + 1, v => relaxW p w (bf p w k) v

/-- The largest operator latency registered in the problem. -/
def maxLat (p : Problem) : Nat :=
  p.opTypes.foldr (fun o acc => max acc o.latency) 0

/-- An upper bound on the smallest feasible initiation interval of a problem
without infeasible cycles. -/
def cyclicBound (p : Problem) : Nat := numOps p * maxLat p + 1

/-- Whether the Bellman-Ford potentials at interval `II` satisfy every
cyclic difference constraint (equivalently, whether `II` is feasible). -/
def cyclicCheck (p : Problem) (II : Nat) : Bool :=
  p.deps.all fun d =>
    decide (bf p (cyclicWeight p II) (numOps p) d.src + cyclicWeight p II d ≤
      bf p (cyclicWeight p II) (numOps p) d.dst)

/-- Modelled from the spec: an executable model of the cyclic simplex entry
point (`scheduleSimplex(CyclicProblem&, Operation*)`, implementation absent
from the sources at hand): search the smallest feasible positive initiation
interval and return the Bellman-Ford potentials (the pointwise-least
feasible schedule) as start times. -/
def scheduleCyclicExec (p : Problem) (_lastOp : Nat) : Option (Nat × List Nat) :=
  match (List.range (cyclicBound p + 1)).find?
      (fun II => decide (1 ≤ II) && cyclicCheck p II) with
  | some II =>
    some (II, (List.range (numOps p)).map
      (fun v => (bf p (cyclicWeight p II) (numOps p) v).toNat))
  | none => none

/-- Modelled from the spec: an executable model of the basic simplex entry
point (`scheduleSimplex(Problem&, Operation*)`).  Per §4.4 the LP optimum of
the basic problem coincides with the ASAP schedule, which is feasible and
minimizes every start time simultaneously, so the executable model computes
the ASAP schedule. -/
def scheduleBasicExec (p : Problem) (_lastOp : Nat) : Option (List Nat) :=
  scheduleASAP p

/-- How many operations of operator type `opr` occupy cycle `c` in the
partial schedule `st`: those with `start ≤ c < start + latency`. -/
def occupiedCount (p : Problem) (st : Nat → Option Nat) (opr c : Nat) : Nat :=
  (List.range (numOps p)).countP fun v =>
    match st v with
    | some s => decide (oprOf p v = opr) && decide (s ≤ c) && decide (c < s + latOf p v)
    | none => false

/-- Whether operation `v` can start at cycle `t` without exceeding its
operator type's limit anywhere in its occupancy window `[t, t+latency)`. -/
def fitsAt (p : Problem) (st : Nat → Option Nat) (v t : Nat) : Bool :=
  match limitOf p v with
  | none => true
  | some k =>
    (List.range (latOf p v)).all fun i =>
      decide (occupiedCount p st (oprOf p v) (t + i) < k)

/-- Search the first cycle `≥ t` (within `fuel` candidates) at which `v`
fits. -/
def findSlot (p : Problem) (st : Nat → Option Nat) (v : Nat) :
    Nat → Nat → Option Nat
  | 0, _ => none
  | fuel + 1, t => if fitsAt p st v t then some t else findSlot p st v fuel (t + 1)

/-- A search budget past the end of every currently placed occupancy window
(there the resource usage is zero). -/
def slotFuel (p : Problem) (st : Nat → Option Nat) : Nat :=
  (List.range (numOps p)).foldr
    (fun u acc => match st u with | some s => max acc (s + latOf p u) | none => acc) 0
  + 1 + numOps p

/-- Modelled from the spec: place one operation of the shared-pipelined
heuristic.  An unscheduled operation whose predecessors are all placed is
started at the first resource-feasible cycle at or after its precedence
bound; the heuristic aborts if its operator type can never fit (limit 0). -/
def sharedPlace (p : Problem) (st : Nat → Option Nat) (v : Nat) :
    Option (Nat → Option Nat) :=
  if (st v).isSome then some st
  else if allPredsScheduled p st v then
    match findSlot p st v (slotFuel p st + asapBound p st v) (asapBound p st v) with
    | some t => some (fun u => if u = v then some t else st u)
    | none => none
  else some st

/-- One pass of the shared-pipelined heuristic over the operations in
insertion order. -/
def sharedRound (p : Problem) (st : Nat → Option Nat) :
    Option (Nat → Option Nat) :=
  (List.range (numOps p)).foldl
    (fun acc v => acc.bind (fun st' => sharedPlace p st' v)) (some st)

/-- `k` passes of the shared-pipelined heuristic. -/
def sharedIter (p : Problem) : Nat → Option (Nat → Option Nat)
  | 0 => some (fun _ => none)
  | k + 1 => (sharedIter p k).bind (fun st => sharedRound p st)

/-- Modelled from the spec: the shared-pipelined-operators entry point
(`scheduleSimplex(SharedPipelinedOperatorsProblem&, Operation*)`,
implementation absent from the sources at hand): list scheduling in
dependence-topological order, delaying operations that would exceed their
operator type's limit to the next free slot; fails if the dependence graph
has cycles. -/
def scheduleShared (p : Problem) (_lastOp : Nat) : Option (List Nat) :=
  match sharedIter p (numOps p) with
  | some st =>
    if (List.range (numOps p)).all (fun v => (st v).isSome) then
      some ((List.range (numOps p)).map (fun v => (st v).getD 0))
    else none
  | none => none

/-- The mutable state an entry point operates on: the problem, the
per-operation `startTime` fields and (for the cyclic variant) the computed
initiation interval. -/
structure ProblemState where
  prob : Problem
  startTimes : List (Option Nat)
  initiationInterval : Option Nat
deriving DecidableEq

/-- Write a successful schedule into the per-operation start-time fields. -/
def commitStarts (s : ProblemState) (sched : List Nat) : ProblemState :=
  { s with startTimes := sched.map some }

/-- Run a solver entry point against the state: on success all start times
are written, on failure the state is left untouched. -/
def runWith (solve : Problem → Option (List Nat)) (s : ProblemState) :
    ProblemState × Bool :=
  match solve s.prob with
  | some sched => (commitStarts s sched, true)
  | none => (s, false)

/-- The `scheduleASAP` entry point acting on the problem state. -/
def runASAP (s : ProblemState) : ProblemState × Bool :=
  runWith scheduleASAP s

/-- The basic-simplex entry point acting on the problem state. -/
def runBasicSimplex (s : ProblemState) (lastOp : Nat) : ProblemState × Bool :=
  runWith (fun p => scheduleBasicExec p lastOp) s

/-- The shared-pipelined entry point acting on the problem state. -/
def runShared (s : ProblemState) (lastOp : Nat) : ProblemState × Bool :=
  runWith (fun p => scheduleShared p lastOp) s

/-- The cyclic entry point acting on the problem state: on success it writes
all start times and the initiation interval, on failure nothing. -/
def runCyclic (s : ProblemState) (lastOp : Nat) : ProblemState × Bool :=
  match scheduleCyclicExec s.prob lastOp with
  | some (ii, sched) =>
    ({ prob := s.prob, startTimes := sched.map some,
       initiationInterval := some ii }, true)
  | none => (s, false)

/-- Scenario: a three-operation chain `A → B → C` with latencies 1, 2, 3. -/
def exChain : Problem :=
  ⟨[⟨1, none⟩, ⟨2, none⟩, ⟨3, none⟩], [0, 1, 2],
   [⟨0, 1, 0⟩, ⟨1, 2, 0⟩]⟩

/-- Scenario: a two-operation cycle, latency 2 each, forward distance 0 and
backward distance 1; its minimum initiation interval is 4. -/
def exCycle4 : Problem :=
  ⟨[⟨2, none⟩], [0, 0], [⟨0, 1, 0⟩, ⟨1, 0, 1⟩]⟩

/-- A cyclic problem whose only cycles have zero total latency (two
zero-latency operations in a distance-2 cycle). -/
def exZeroLat : Problem :=
  ⟨[⟨0, none⟩], [0, 0], [⟨0, 1, 1⟩, ⟨1, 0, 1⟩]⟩

/-- A problem with a zero-distance cycle of positive latency (no feasible
initiation interval exists). -/
def exInfeasible : Problem :=
  ⟨[⟨1, none⟩], [0, 0], [⟨0, 1, 0⟩, ⟨1, 0, 0⟩]⟩

/-- Scenario: one operator type with limit 1 and two independent unit-latency
operations; the heuristic must serialize them. -/
def exShared : Problem :=
  ⟨[⟨1, some 1⟩], [0, 0], []⟩

/-- A malformed problem: its only dependence references operation 5, which
was never added. -/
def exDangling : Problem :=
  ⟨[⟨1, none⟩], [0], [⟨0, 5, 0⟩]⟩

/-- A concrete problem state over the chain scenario. -/
def exState : ProblemState := ⟨exChain, [none, none, none], none⟩

/-- A problem state whose problem has no feasible schedule, with arbitrary
pre-existing result fields. -/
def exFailState : ProblemState := ⟨exInfeasible, [some 9, none], some 7⟩

/-- The invariant maintained by the shared-pipelined heuristic: only
registered operations are placed, every placed operation starts after all
its placed predecessors finish, and no operator-type limit is ever
exceeded at any cycle. -/
def SharedInv (p : Problem) (st : Nat → Option Nat) : Prop :=
  (∀ v, numOps p ≤ v → st v = none) ∧
  (∀ v t, st v = some t → ∀ d ∈ incoming p v,
    ∃ s', st d.src = some s' ∧ s' + latOf p d.src ≤ t) ∧
  (∀ oIdx k, (p.opTypes.getD oIdx ⟨0, none⟩).limit = some k →
    ∀ c, occupiedCount p st oIdx c ≤ k)

/-- How many operations of operator type `opr` occupy cycle `c` in the final
schedule `sched`. -/
def occupiedAt (p : Problem) (sched : List Nat) (opr c : Nat) : Nat :=
  (List.range (numOps p)).countP fun v =>
    decide (oprOf p v = opr) && decide (sched.getD v 0 ≤ c) &&
      decide (c < sched.getD v 0 + latOf p v)

end CirctSpec

namespace CirctSpec

theorem foldr_max_le {α : Type} (l : List α) (f : α → Nat) (c : Nat)
    (h : ∀ a ∈ l, f a ≤ c) :
    l.foldr (fun a acc => max acc (f a)) 0 ≤ c := by
  induction l with
  | nil => exact Nat.zero_le c
  | cons a t ih =>
    simp only [List.foldr_cons, max_le_iff]
    exact ⟨ih (fun b hb => h b (List.mem_cons_of_mem a hb)), h a (List.mem_cons_self a t)⟩

theorem le_foldr_max {α : Type} {l : List α} (f : α → Nat) {a : α} (ha : a ∈ l) :
    f a ≤ l.foldr (fun a acc => max acc (f a)) 0 := by
  induction l with
  | nil => cases ha
  | cons b t ih =>
    simp only [List.foldr_cons]
    rcases List.mem_cons.1 ha with h | h
    · exact h ▸ le_max_right _ _
    · exact le_trans (ih h) (le_max_left _ _)

theorem foldr_max_congr {α : Type} (l : List α) (f g : α → Nat)
    (h : ∀ a ∈ l, f a = g a) :
    l.foldr (fun a acc => max acc (f a)) 0 = l.foldr (fun a acc => max acc (g a)) 0 := by
  induction l with
  | nil => rfl
  | cons a t ih =>
    simp only [List.foldr_cons]
    rw [h a (List.mem_cons_self a t), ih (fun b hb => h b (List.mem_cons_of_mem a hb))]

theorem mem_incoming {p : Problem} {v : Nat} {d : Dependence} :
    d ∈ incoming p v ↔ d ∈ p.deps ∧ d.dst = v := by
  simp [incoming, List.mem_filter]

theorem asapIter_lt {p : Problem} {k v : Nat} {s : Nat}
    (h : asapIter p k v = some s) : v < numOps p := by
  cases k with
  | zero => simp [asapIter] at h
  | succ k =>
    by_contra hv
    simp [asapIter, asapStep, hv] at h

theorem asapIter_stable {p : Problem} {k v : Nat} {s : Nat}
    (h : asapIter p k v = some s) : asapIter p (k + 1) v = some s := by
  have hv := asapIter_lt h
  simp [asapIter, asapStep, hv, h]

theorem asapIter_mono {p : Problem} {j k v : Nat} {s : Nat} (hjk : j ≤ k)
    (h : asapIter p j v = some s) : asapIter p k v = some s := by
  induction k with
  | zero => cases Nat.le_zero.1 hjk; exact h
  | succ k ih =>
    rcases Nat.lt_or_ge j (k + 1) with hlt | hge
    · exact asapIter_stable (ih (Nat.lt_succ_iff.1 hlt))
    · cases Nat.le_antisymm hjk hge; exact h

theorem asapIter_recur {p : Problem} {k v : Nat} {s : Nat}
    (h : asapIter p k v = some s) :
    allPredsScheduled p (asapIter p k) v = true ∧ s = asapBound p (asapIter p k) v := by
  induction k generalizing v s with
  | zero => simp [asapIter] at h
  | succ k ih =>
    have hv := asapIter_lt h
    have hstep : asapStep p (asapIter p k) v = some s := h
    simp only [asapStep, hv, if_pos] at hstep
    rcases hk : asapIter p k v with _ | s'
    · rw [hk] at hstep
      by_cases hr : allPredsScheduled p (asapIter p k) v = true
      · simp only [hr, if_pos] at hstep
        have hval : s = asapBound p (asapIter p k) v := by
          simpa using hstep.symm
        have hpreds1 : allPredsScheduled p (asapIter p (k + 1)) v = true := by
          simp only [allPredsScheduled, List.all_eq_true] at hr ⊢
          intro d hd
          rcases Option.isSome_iff_exists.1 (hr d hd) with ⟨s'', hs''⟩
          rw [asapIter_stable hs'']
          rfl
        refine ⟨hpreds1, ?_⟩
        rw [hval]
        apply foldr_max_congr
        intro d hd
        have hall := (List.all_eq_true.1 hr) d hd
        rcases Option.isSome_iff_exists.1 hall with ⟨s'', hs''⟩
        rw [hs'', asapIter_stable hs'']
      · simp [hr] at hstep
    · rw [hk] at hstep
      have hss : s' = s := by simpa using hstep
      subst hss
      rcases ih hk with ⟨hr, hval⟩
      have hpreds1 : allPredsScheduled p (asapIter p (k + 1)) v = true := by
        simp only [allPredsScheduled, List.all_eq_true] at hr ⊢
        intro d hd
        rcases Option.isSome_iff_exists.1 (hr d hd) with ⟨s'', hs''⟩
        rw [asapIter_stable hs'']
        rfl
      refine ⟨hpreds1, ?_⟩
      rw [hval]
      apply foldr_max_congr
      intro d hd
      have hall := (List.all_eq_true.1 hr) d hd
      rcases Option.isSome_iff_exists.1 hall with ⟨s'', hs''⟩
      rw [hs'', asapIter_stable hs'']

theorem asapIter_le_feasible {p : Problem} {y : Nat → Nat}
    (hy : feasibleBasic p y) {k v s : Nat} (h : asapIter p k v = some s) :
    s ≤ y v := by
  induction k generalizing v s with
  | zero => simp [asapIter] at h
  | succ k ih =>
    have hv := asapIter_lt h
    have hstep : asapStep p (asapIter p k) v = some s := h
    simp only [asapStep, hv, if_pos] at hstep
    rcases hk : asapIter p k v with _ | s'
    · rw [hk] at hstep
      by_cases hr : allPredsScheduled p (asapIter p k) v = true
      · simp only [hr, if_pos, Option.some.injEq] at hstep
        rw [← hstep]
        apply foldr_max_le
        intro d hd
        rcases mem_incoming.1 hd with ⟨hdd, hdst⟩
        have hall := (List.all_eq_true.1 hr) d hd
        rcases Option.isSome_iff_exists.1 hall with ⟨s'', hs''⟩
        rw [hs'']
        calc s'' + latOf p d.src ≤ y d.src + latOf p d.src := by
              exact Nat.add_le_add_right (ih hs'') _
          _ ≤ y d.dst := hy d hdd
          _ = y v := by rw [hdst]
      · simp [hr] at hstep
    · rw [hk] at hstep
      have hss : s' = s := by simpa using hstep
      exact hss ▸ ih hk

theorem getD_map_range {f : Nat → Nat} {n v : Nat} (h : v < n) :
    ((List.range n).map f).getD v 0 = f v := by
  rw [List.getD_eq_getElem?_getD]
  simp [List.getElem?_range h]

theorem scheduleASAP_some {p : Problem} {sched : List Nat}
    (h : scheduleASAP p = some sched) :
    ∀ v < numOps p, asapIter p (numOps p) v = some (sched.getD v 0) := by
  intro v hv
  simp only [scheduleASAP] at h
  by_cases hall : (List.range (numOps p)).all (fun v => (asapIter p (numOps p) v).isSome) = true
  · simp only [hall, if_pos] at h
    have hsched : sched = (List.range (numOps p)).map
        (fun v => (asapIter p (numOps p) v).getD 0) := by
      exact (Option.some.injEq _ _ ▸ h).symm
    have hsome := (List.all_eq_true.1 hall) v (List.mem_range.2 hv)
    rcases Option.isSome_iff_exists.1 hsome with ⟨s, hs⟩
    rw [hsched, getD_map_range hv, hs]
    rfl
  · simp [hall] at h

/-- The ASAP schedule satisfies the precedence constraint of every dependence
whose destination is a registered operation. -/
theorem scheduleASAP_precedence {p : Problem} {sched : List Nat}
    (h : scheduleASAP p = some sched) {d : Dependence} (hd : d ∈ p.deps)
    (hdst : d.dst < numOps p) :
    sched.getD d.src 0 + latOf p d.src ≤ sched.getD d.dst 0 := by
  have hv := scheduleASAP_some h d.dst hdst
  rcases asapIter_recur hv with ⟨hr, hval⟩
  have hdin : d ∈ incoming p d.dst := mem_incoming.2 ⟨hd, rfl⟩
  have hsome := (List.all_eq_true.1 hr) d hdin
  rcases Option.isSome_iff_exists.1 hsome with ⟨s', hs'⟩
  have hsrc : d.src < numOps p := asapIter_lt hs'
  have hs'' := scheduleASAP_some h d.src hsrc
  rw [hs'] at hs''
  have hval' : s' = sched.getD d.src 0 := Option.some.inj hs''
  have hterm := le_foldr_max
    (fun d' => ((asapIter p (numOps p) d'.src).getD 0 + latOf p d'.src)) hdin
  simp only [hs', Option.getD_some] at hterm
  rw [hval'] at hterm
  exact le_trans hterm (le_of_eq hval.symm)

/-- The ASAP schedule is pointwise below every feasible schedule. -/
theorem scheduleASAP_minimal {p : Problem} {sched : List Nat}
    (h : scheduleASAP p = some sched) {y : Nat → Nat} (hy : feasibleBasic p y) :
    ∀ v < numOps p, sched.getD v 0 ≤ y v := by
  intro v hv
  exact asapIter_le_feasible hy (scheduleASAP_some h v hv)

/-- Well-formedness makes the ASAP schedule feasible as a total function. -/
theorem scheduleASAP_feasible {p : Problem} {sched : List Nat}
    (h : scheduleASAP p = some sched) (hwf : WellFormed p) :
    feasibleBasic p (fun v => sched.getD v 0) := by
  intro d hd
  exact scheduleASAP_precedence h hd ((hwf.1 d hd).2)

end CirctSpec

/-- Claim C3: for every problem on which `scheduleASAP` succeeds, each
operation's start time equals `max(0, max over incoming dependences of
start(source) + latency(source))`, and every operation without incoming
dependences starts at cycle 0. -/
theorem claim3_asap_earliest_start {p : CirctSpec.Problem} {sched : List Nat}
    (h : CirctSpec.scheduleASAP p = some sched) :
    ∀ v < CirctSpec.numOps p,
      sched.getD v 0 = (CirctSpec.incoming p v).foldr
        (fun d acc => max acc (sched.getD d.src 0 + CirctSpec.latOf p d.src)) 0 ∧
      (CirctSpec.incoming p v = [] → sched.getD v 0 = 0) := by
  intro v hv
  have hvsome := CirctSpec.scheduleASAP_some h v hv
  rcases CirctSpec.asapIter_recur hvsome with ⟨hr, hval⟩
  have hmain : sched.getD v 0 = (CirctSpec.incoming p v).foldr
      (fun d acc => max acc (sched.getD d.src 0 + CirctSpec.latOf p d.src)) 0 := by
    rw [hval]
    apply CirctSpec.foldr_max_congr
    intro d hd
    have hsome := (List.all_eq_true.1 hr) d hd
    rcases Option.isSome_iff_exists.1 hsome with ⟨s', hs'⟩
    have hsrc := CirctSpec.asapIter_lt hs'
    have hs'' := CirctSpec.scheduleASAP_some h d.src hsrc
    rw [hs'] at hs''
    rw [hs']
    simp only [Option.getD_some]
    rw [Option.some.inj hs'']
  refine ⟨hmain, fun hnone => ?_⟩
  rw [hmain, hnone]
  rfl

/-- Witness for C3: on the three-operation chain with latencies 1, 2, 3 the
computed schedule is `[0, 1, 3]` and operation 2's start satisfies the
earliest-start recurrence. -/
theorem claim3_asap_earliest_start_witness :
    CirctSpec.scheduleASAP CirctSpec.exChain = some [0, 1, 3] ∧
    ([0, 1, 3].getD 2 0 = (CirctSpec.incoming CirctSpec.exChain 2).foldr
      (fun d acc => max acc ([0, 1, 3].getD d.src 0 +
        CirctSpec.latOf CirctSpec.exChain d.src)) 0 ∧
     (CirctSpec.incoming CirctSpec.exChain 2 = [] → [0, 1, 3].getD 2 0 = 0)) := by
  have hs : CirctSpec.scheduleASAP CirctSpec.exChain = some [0, 1, 3] := by decide
  exact ⟨hs, claim3_asap_earliest_start hs 2 (by decide)⟩

/-- Claim C10: `ICmpOp::serializeExpression` succeeds exactly for the
predicates eq, ne, sge, sgt, sle and slt, emitting the corresponding SMT-LIB
comparison (with `ne` rendered as the negation of equality); for every
unsigned predicate it returns failure having written nothing to the output
stream. -/
theorem claim10_icmp_serialize (pred : CombSMT.ICmpPredicate) :
    (CombSMT.isUnsignedPred pred = true →
      ∀ l r, CombSMT.serializeExpression pred l r = ("", false)) ∧
    (CombSMT.isUnsignedPred pred = false →
      ∀ ls rs, CombSMT.serializeExpression pred (some ls) (some rs) =
        (CombSMT.smtComparison pred ls rs, true)) ∧
    (∀ ls rs, CombSMT.smtComparison .ne ls rs =
        "(not " ++ CombSMT.smtComparison .eq ls rs ++ ")") := by
  refine ⟨?_, ?_, ?_⟩
  · intro hu l r
    cases pred <;> simp_all [CombSMT.isUnsignedPred, CombSMT.serializeExpression,
      CombSMT.cmpOpener]
  · intro hs ls rs
    cases pred <;> simp_all [CombSMT.isUnsignedPred, CombSMT.serializeExpression,
      CombSMT.cmpOpener, CombSMT.smtComparison]
  · intro ls rs
    simp only [CombSMT.smtComparison, ← String.append_assoc]
    rw [show ("(not " ++ "(= " : String) = "(not (= " from by decide]

/-- Witness for C10: on the unsigned predicate `ult` nothing is written and
the serialization fails; on `ne` with operands `a` and `b` it succeeds
emitting the negated equality. -/
theorem claim10_icmp_serialize_witness :
    CombSMT.serializeExpression .ult none none = ("", false) ∧
    CombSMT.serializeExpression .ne (some "a") (some "b") =
      ("(not (= a b))", true) := by
  refine ⟨(claim10_icmp_serialize .ult).1 rfl none none, ?_⟩
  have h := (claim10_icmp_serialize .ne).2.1 rfl "a" "b"
  rw [h]
  decide

namespace CirctSpec

theorem scheduleASAP_length {p : Problem} {sched : List Nat}
    (h : scheduleASAP p = some sched) : sched.length = numOps p := by
  simp only [scheduleASAP] at h
  by_cases hall : (List.range (numOps p)).all (fun v => (asapIter p (numOps p) v).isSome) = true
  · simp only [hall, if_pos, Option.some.injEq] at h
    rw [← h]
    simp
  · simp [hall] at h

theorem validate_none_iff (p : Problem) : validate p = none ↔ WellFormed p := by
  constructor
  · intro h
    rcases h1 : p.deps.find? (fun d => decide (numOps p ≤ d.src)) with _ | d
    · rcases h2 : p.deps.find? (fun d => decide (numOps p ≤ d.dst)) with _ | d
      · rcases h3 : (List.range (numOps p)).find?
            (fun v => decide (p.opTypes.length ≤ oprOf p v)) with _ | v
        · have hs := List.find?_eq_none.1 h1
          have hd := List.find?_eq_none.1 h2
          have ho := List.find?_eq_none.1 h3
          refine ⟨fun d hd' => ⟨?_, ?_⟩, fun v hv => ?_⟩
          · have := hs d hd'; simp only [decide_eq_true_eq] at this; omega
          · have := hd d hd'; simp only [decide_eq_true_eq] at this; omega
          · have := ho v (List.mem_range.2 hv)
            simp only [decide_eq_true_eq] at this
            omega
        · exfalso; simp only [validate, h1, h2, h3] at h; exact Option.noConfusion h
      · exfalso; simp only [validate, h1, h2] at h; exact Option.noConfusion h
    · exfalso; simp only [validate, h1] at h; exact Option.noConfusion h
  · intro hwf
    have h1 : p.deps.find? (fun d => decide (numOps p ≤ d.src)) = none := by
      refine List.find?_eq_none.2 fun d hd => ?_
      simp only [decide_eq_true_eq]
      exact Nat.not_le.2 (hwf.1 d hd).1
    have h2 : p.deps.find? (fun d => decide (numOps p ≤ d.dst)) = none := by
      refine List.find?_eq_none.2 fun d hd => ?_
      simp only [decide_eq_true_eq]
      exact Nat.not_le.2 (hwf.1 d hd).2
    have h3 : (List.range (numOps p)).find?
        (fun v => decide (p.opTypes.length ≤ oprOf p v)) = none := by
      refine List.find?_eq_none.2 fun v hv => ?_
      simp only [decide_eq_true_eq]
      exact Nat.not_le.2 (hwf.2 v (List.mem_range.1 hv))
    simp [validate, h1, h2, h3]

end CirctSpec

/-- Claim C9: `validate` fails with a `MalformedProblem` error identifying
the offending entity exactly when a structural invariant is violated; in
particular, when a dependence references an operation that was never added,
the reported error carries the dangling handle. -/
theorem claim9_validate_malformed (p : CirctSpec.Problem) :
    (CirctSpec.validate p = none ↔ CirctSpec.WellFormed p) ∧
    ((∃ d ∈ p.deps, CirctSpec.numOps p ≤ d.src ∨ CirctSpec.numOps p ≤ d.dst) →
      ∃ h, CirctSpec.validate p = some (.danglingOperation h) ∧
        CirctSpec.numOps p ≤ h ∧ ∃ d ∈ p.deps, d.src = h ∨ d.dst = h) := by
  refine ⟨CirctSpec.validate_none_iff p, ?_⟩
  rintro ⟨d₀, hd₀, hbad⟩
  rcases h1 : p.deps.find? (fun d => decide (CirctSpec.numOps p ≤ d.src)) with _ | d
  · have hs := List.find?_eq_none.1 h1
    have hdst : CirctSpec.numOps p ≤ d₀.dst := by
      rcases hbad with h | h
      · exact absurd (by simpa using hs d₀ hd₀) (by simpa using h)
      · exact h
    rcases h2 : p.deps.find? (fun d => decide (CirctSpec.numOps p ≤ d.dst)) with _ | d
    · exfalso
      have := List.find?_eq_none.1 h2 d₀ hd₀
      simp only [decide_eq_true_eq] at this
      exact this hdst
    · refine ⟨d.dst, ?_, ?_, d, List.mem_of_find?_eq_some h2, Or.inr rfl⟩
      · simp [CirctSpec.validate, h1, h2]
      · simpa using List.find?_some h2
  · refine ⟨d.src, ?_, ?_, d, List.mem_of_find?_eq_some h1, Or.inl rfl⟩
    · simp [CirctSpec.validate, h1]
    · simpa using List.find?_some h1

/-- Witness for C9: on the problem whose only dependence references the
never-added operation 5, validation fails naming handle 5. -/
theorem claim9_validate_malformed_witness :
    ∃ h, CirctSpec.validate CirctSpec.exDangling =
        some (.danglingOperation h) ∧
      CirctSpec.numOps CirctSpec.exDangling ≤ h ∧
      ∃ d ∈ CirctSpec.exDangling.deps, d.src = h ∨ d.dst = h :=
  (claim9_validate_malformed CirctSpec.exDangling).2
    ⟨⟨0, 5, 0⟩, by decide, by decide⟩

/-- Claim C2: on every basic problem on which both succeed, the ASAP list
scheduler and the basic simplex variant assign the same start time to the
designated `lastOp`. -/
theorem claim2_asap_simplex_agree {p : CirctSpec.Problem} {lastOp : Nat}
    {sched : List Nat} {x : Nat → Nat}
    (hval : CirctSpec.validate p = none)
    (hasap : CirctSpec.scheduleASAP p = some sched)
    (hsimplex : CirctSpec.basicSimplexSolves p lastOp x) :
    x lastOp = sched.getD lastOp 0 := by
  have hwf := (CirctSpec.validate_none_iff p).1 hval
  have hfeas := CirctSpec.scheduleASAP_feasible hasap hwf
  have hx1 : x lastOp ≤ sched.getD lastOp 0 := hsimplex.2 _ hfeas
  rcases Nat.lt_or_ge lastOp (CirctSpec.numOps p) with hlt | hge
  · exact Nat.le_antisymm hx1 (CirctSpec.scheduleASAP_minimal hasap hsimplex.1 lastOp hlt)
  · have hlen := CirctSpec.scheduleASAP_length hasap
    have hout : sched.getD lastOp 0 = 0 := by
      rw [List.getD_eq_getElem?_getD, List.getElem?_eq_none (by omega)]
      rfl
    omega

/-- Witness for C2: on the three-operation chain with `lastOp = 2`, the
schedule `[0,1,3]` viewed as a function is an optimal basic-simplex solution
and agrees with the ASAP result. -/
theorem claim2_asap_simplex_agree_witness :
    (fun v => [0, 1, 3].getD v 0) 2 = [0, 1, 3].getD 2 0 := by
  have hval : CirctSpec.validate CirctSpec.exChain = none := by decide
  have hasap : CirctSpec.scheduleASAP CirctSpec.exChain = some [0, 1, 3] := by decide
  have hfeas : CirctSpec.feasibleBasic CirctSpec.exChain (fun v => [0, 1, 3].getD v 0) := by
    intro d hd
    fin_cases hd <;> decide
  have hsolves : CirctSpec.basicSimplexSolves CirctSpec.exChain 2
      (fun v => [0, 1, 3].getD v 0) := by
    refine ⟨hfeas, fun y hy => ?_⟩
    have := CirctSpec.scheduleASAP_minimal hasap hy 2 (by decide)
    simpa using this
  exact @claim2_asap_simplex_agree CirctSpec.exChain 2 [0, 1, 3]
    (fun v => [0, 1, 3].getD v 0) hval hasap hsolves

namespace CirctSpec

theorem isWalkFrom_append {p : Problem} :
    ∀ {es₁ es₂ : List Dependence} {u v : Nat},
      IsWalkFrom p u v (es₁ ++ es₂) ↔
        ∃ m, IsWalkFrom p u m es₁ ∧ IsWalkFrom p m v es₂ := by
  intro es₁
  induction es₁ with
  | nil =>
    intro es₂ u v
    constructor
    · intro h; exact ⟨u, rfl, h⟩
    · rintro ⟨m, hm, h⟩; cases hm; exact h
  | cons d t ih =>
    intro es₂ u v
    constructor
    · rintro ⟨hd, hsrc, hrest⟩
      obtain ⟨m, h1, h2⟩ := ih.1 hrest
      exact ⟨m, ⟨hd, hsrc, h1⟩, h2⟩
    · rintro ⟨m, ⟨hd, hsrc, h1⟩, h2⟩
      exact ⟨hd, hsrc, ih.2 ⟨m, h1, h2⟩⟩

theorem isWalkFrom_mem {p : Problem} :
    ∀ {es : List Dependence} {u v : Nat},
      IsWalkFrom p u v es → ∀ d ∈ es, d ∈ p.deps := by
  intro es
  induction es with
  | nil => intro u v _ d hd; cases hd
  | cons e t ih =>
    rintro u v ⟨he, _, hrest⟩ d hd
    rcases List.mem_cons.1 hd with rfl | hd
    · exact he
    · exact ih hrest d hd

theorem latSum_cons (p : Problem) (d : Dependence) (es : List Dependence) :
    latSum p (d :: es) = latOf p d.src + latSum p es := by
  simp [latSum]

theorem distSum_cons (d : Dependence) (es : List Dependence) :
    distSum (d :: es) = d.distance + distSum es := by
  simp [distSum]

theorem weightW_append (w : Dependence → Int) (es₁ es₂ : List Dependence) :
    weightW w (es₁ ++ es₂) = weightW w es₁ + weightW w es₂ := by
  simp [weightW]

/-- Telescoping a feasible cyclic schedule along a walk. -/
theorem teleWalk {p : Problem} {II : Nat} {x : Nat → Nat}
    (hx : cyclicFeasible p II x) :
    ∀ {es : List Dependence} {u v : Nat}, IsWalkFrom p u v es →
      x u + latSum p es ≤ x v + II * distSum es := by
  intro es
  induction es with
  | nil =>
    intro u v h; cases h; simp [latSum, distSum]
  | cons d t ih =>
    rintro u v ⟨hd, hsrc, hrest⟩
    have h1 := hx d hd
    have h2 := ih hrest
    rw [latSum_cons, distSum_cons, Nat.mul_add]
    rw [← hsrc]
    have hg : ∀ a b : Nat,
        x d.src + latOf p d.src ≤ x d.dst + a →
        x d.dst + latSum p t ≤ x v + b →
        x d.src + (latOf p d.src + latSum p t) ≤ x v + (a + b) := by
      intro a b ha hb; omega
    exact hg _ _ h1 h2

/-- Around a closed walk, total latency is bounded by `II` times total
distance. -/
theorem cycle_bound {p : Problem} {II : Nat} {x : Nat → Nat}
    (hx : cyclicFeasible p II x) {u : Nat} {es : List Dependence}
    (hw : IsWalkFrom p u u es) : latSum p es ≤ II * distSum es := by
  have h := teleWalk hx hw
  generalize hc : II * distSum es = c at h ⊢
  omega

theorem trace_split {p : Problem} :
    ∀ (l₁ : List Nat) {u v y : Nat} {es : List Dependence} {l' : List Nat},
      IsWalkFrom p u v es → trace u es = l₁ ++ y :: l' →
      ∃ es₁ es₂, es = es₁ ++ es₂ ∧ es₁.length = l₁.length ∧
        IsWalkFrom p u y es₁ ∧ IsWalkFrom p y v es₂ ∧ trace y es₂ = y :: l' := by
  intro l₁
  induction l₁ with
  | nil =>
    intro u v y es l' hw ht
    simp only [trace, List.nil_append, List.cons.injEq] at ht
    obtain ⟨huy, hmap⟩ := ht
    refine ⟨[], es, rfl, rfl, huy, huy ▸ hw, ?_⟩
    simp [trace, hmap]
  | cons a l₁ ih =>
    intro u v y es l' hw ht
    simp only [trace, List.cons_append, List.cons.injEq] at ht
    obtain ⟨hua, hmap⟩ := ht
    cases es with
    | nil => simp at hmap
    | cons d es' =>
      obtain ⟨hd, hsrc, hrest⟩ := hw
      simp only [List.map_cons] at hmap
      have ht' : trace d.dst es' = l₁ ++ y :: l' := by
        simpa [trace] using hmap
      obtain ⟨es₁, es₂, heq, hlen, hw1, hw2, htr⟩ := ih hrest ht'
      exact ⟨d :: es₁, es₂, by rw [heq]; rfl, by simp [hlen],
        ⟨hd, hsrc, hw1⟩, hw2, htr⟩

theorem not_nodup_split {α : Type} {l : List α} (h : ¬l.Nodup) :
    ∃ x l₁ l₂ l₃, l = l₁ ++ x :: (l₂ ++ x :: l₃) := by
  induction l with
  | nil => exact absurd List.nodup_nil h
  | cons a t ih =>
    by_cases hmem : a ∈ t
    · obtain ⟨s, r, hsr⟩ := List.append_of_mem hmem
      exact ⟨a, [], s, r, by simp [hsr]⟩
    · have hnd : ¬t.Nodup := fun hnd => h (List.nodup_cons.2 ⟨hmem, hnd⟩)
      obtain ⟨x, l₁, l₂, l₃, heq⟩ := ih hnd
      exact ⟨x, a :: l₁, l₂, l₃, by rw [heq]; rfl⟩

theorem nodup_length_le {l : List Nat} {n : Nat} (hnd : l.Nodup)
    (hlt : ∀ x ∈ l, x < n) : l.length ≤ n := by
  have h1 : l.toFinset.card = l.length := List.toFinset_card_of_nodup hnd
  have h2 : l.toFinset ⊆ Finset.range n :=
    fun x hx => Finset.mem_range.2 (hlt x (List.mem_toFinset.1 hx))
  have h3 := Finset.card_le_card h2
  rw [h1, Finset.card_range] at h3
  exact h3

theorem trace_lt {p : Problem} (hwf : WellFormed p) {u v : Nat}
    {es : List Dependence} (hw : IsWalkFrom p u v es) (hu : u < numOps p) :
    ∀ x ∈ trace u es, x < numOps p := by
  intro x hx
  rcases List.mem_cons.1 hx with rfl | hx
  · exact hu
  · obtain ⟨d, hd, rfl⟩ := List.mem_map.1 hx
    exact (hwf.1 d (isWalkFrom_mem hw d hd)).2

/-- Any walk longer than the number of operations contains a proper closed
subwalk. -/
theorem walk_split {p : Problem} (hwf : WellFormed p) {u v : Nat}
    {es : List Dependence} (hw : IsWalkFrom p u v es)
    (hlen : numOps p < es.length) :
    ∃ y es₁ es₂ es₃, es = es₁ ++ es₂ ++ es₃ ∧ es₂ ≠ [] ∧
      es₂.length < es.length ∧ IsWalkFrom p u y es₁ ∧ IsWalkFrom p y y es₂ ∧
      IsWalkFrom p y v es₃ := by
  cases es with
  | nil => simp at hlen
  | cons d rest =>
    obtain ⟨hd, hsrc, hrest⟩ := hw
    have hdstlt : d.dst < numOps p := (hwf.1 d hd).2
    have htr_lt := trace_lt hwf hrest hdstlt
    have htr_len : numOps p < (trace d.dst rest).length := by
      simp only [trace, List.length_cons, List.length_map]
      simp only [List.length_cons] at hlen
      omega
    have hnnd : ¬(trace d.dst rest).Nodup :=
      fun hnd => absurd (nodup_length_le hnd htr_lt) (by omega)
    obtain ⟨y, l₁, l₂, l₃, heq⟩ := not_nodup_split hnnd
    obtain ⟨es₁, es₂₃, heq1, _, hw1, hw23, htr23⟩ := trace_split l₁ hrest heq
    have htr23' : trace y es₂₃ = (y :: l₂) ++ y :: l₃ := htr23
    obtain ⟨es₂, es₃, heq2, hlen2, hw2, hw3, _⟩ := trace_split (y :: l₂) hw23 htr23'
    have hne : es₂ ≠ [] := by
      intro hnil
      rw [hnil] at hlen2
      simp at hlen2
    refine ⟨y, d :: es₁, es₂, es₃, ?_, hne, ?_, ⟨hd, hsrc, hw1⟩, hw2, hw3⟩
    · rw [heq1, heq2]; simp
    · have h1 : rest.length = es₁.length + (es₂.length + es₃.length) := by
        rw [heq1, heq2]; simp
      simp only [List.length_cons]
      have := List.length_pos.2 hne
      omega

/-- If every short closed walk has nonpositive weight, so does every closed
walk. -/
theorem closed_nonpos {p : Problem} (hwf : WellFormed p) (w : Dependence → Int)
    (hshort : ∀ y es, IsWalkFrom p y y es → es.length ≤ numOps p →
      weightW w es ≤ 0) :
    ∀ y es, IsWalkFrom p y y es → weightW w es ≤ 0 := by
  have main : ∀ L y (es : List Dependence), es.length = L →
      IsWalkFrom p y y es → weightW w es ≤ 0 := by
    intro L
    induction L using Nat.strong_induction_on with
    | _ L ih =>
      intro y es hlen hw
      rcases le_or_lt es.length (numOps p) with hle | hgt
      · exact hshort y es hw hle
      · obtain ⟨z, es₁, es₂, es₃, heq, hne, hlt2, hw1, hw2, hw3⟩ :=
          walk_split hwf hw hgt
        have houter : IsWalkFrom p y y (es₁ ++ es₃) :=
          isWalkFrom_append.2 ⟨z, hw1, hw3⟩
        have hpos := List.length_pos.2 hne
        have hlen_es : es.length = es₁.length + es₂.length + es₃.length := by
          rw [heq]; simp; omega
        have h1 : weightW w (es₁ ++ es₃) ≤ 0 := by
          refine ih (es₁ ++ es₃).length ?_ y _ rfl houter
          simp only [List.length_append]
          omega
        have h2 : weightW w es₂ ≤ 0 := by
          refine ih es₂.length ?_ z _ rfl hw2
          omega
        have hsum : weightW w es =
            weightW w es₁ + weightW w es₂ + weightW w es₃ := by
          rw [heq, weightW_append, weightW_append]
        have hsum2 : weightW w (es₁ ++ es₃) = weightW w es₁ + weightW w es₃ :=
          weightW_append w es₁ es₃
        omega
  exact fun y es => main es.length y es rfl

/-- Any walk can be replaced by one of length at most `numOps` between the
same endpoints without decreasing its weight, provided closed walks are
nonpositive. -/
theorem walk_shorten {p : Problem} (hwf : WellFormed p) (w : Dependence → Int)
    (hcl : ∀ y es, IsWalkFrom p y y es → weightW w es ≤ 0) :
    ∀ {u v : Nat} {es : List Dependence}, IsWalkFrom p u v es →
      ∃ es', IsWalkFrom p u v es' ∧ es'.length ≤ numOps p ∧
        weightW w es ≤ weightW w es' := by
  have main : ∀ L u v (es : List Dependence), es.length = L →
      IsWalkFrom p u v es →
      ∃ es', IsWalkFrom p u v es' ∧ es'.length ≤ numOps p ∧
        weightW w es ≤ weightW w es' := by
    intro L
    induction L using Nat.strong_induction_on with
    | _ L ih =>
      intro u v es hlen hw
      rcases le_or_lt es.length (numOps p) with hle | hgt
      · exact ⟨es, hw, hle, le_refl _⟩
      · obtain ⟨z, es₁, es₂, es₃, heq, hne, _, hw1, hw2, hw3⟩ :=
          walk_split hwf hw hgt
        have houter : IsWalkFrom p u v (es₁ ++ es₃) :=
          isWalkFrom_append.2 ⟨z, hw1, hw3⟩
        have hpos := List.length_pos.2 hne
        have hlen_es : es.length = es₁.length + es₂.length + es₃.length := by
          rw [heq]; simp; omega
        have hlt_out : (es₁ ++ es₃).length < L := by
          simp only [List.length_append]
          omega
        obtain ⟨es', hw', hlen', hge⟩ := ih (es₁ ++ es₃).length hlt_out u v _ rfl houter
        refine ⟨es', hw', hlen', ?_⟩
        have h2 := hcl z es₂ hw2
        have hsum : weightW w es =
            weightW w es₁ + weightW w es₂ + weightW w es₃ := by
          rw [heq, weightW_append, weightW_append]
        have hsum2 : weightW w (es₁ ++ es₃) = weightW w es₁ + weightW w es₃ :=
          weightW_append w es₁ es₃
        omega
  exact fun {u v es} hw => main es.length u v es rfl hw

end CirctSpec

namespace CirctSpec

theorem le_relaxW (p : Problem) (w : Dependence → Int) (f : Nat → Int) (v : Nat) :
    f v ≤ relaxW p w f v := by
  unfold relaxW
  have h : ∀ (l : List Dependence) (b : Int),
      b ≤ l.foldr (fun d acc => if d.dst = v then max acc (f d.src + w d) else acc) b := by
    intro l b
    induction l with
    | nil => exact le_refl b
    | cons d t ih =>
      simp only [List.foldr_cons]
      by_cases hdv : d.dst = v
      · simp only [hdv, if_pos]
        exact le_trans ih (le_max_left _ _)
      · simp only [hdv, if_neg, ite_false]
        exact ih
  exact h p.deps (f v)

theorem edge_le_relaxW {p : Problem} (w : Dependence → Int) (f : Nat → Int)
    {d : Dependence} (hd : d ∈ p.deps) {v : Nat} (hdst : d.dst = v) :
    f d.src + w d ≤ relaxW p w f v := by
  unfold relaxW
  have h : ∀ (l : List Dependence) (b : Int), d ∈ l →
      f d.src + w d ≤ l.foldr (fun e acc => if e.dst = v then max acc (f e.src + w e) else acc) b := by
    intro l b hmem
    induction l with
    | nil => cases hmem
    | cons e t ih =>
      simp only [List.foldr_cons]
      rcases List.mem_cons.1 hmem with rfl | hmem'
      · simp only [hdst, if_pos]
        exact le_max_right _ _
      · by_cases hev : e.dst = v
        · simp only [hev, if_pos]
          exact le_trans (ih hmem') (le_max_left _ _)
        · simp only [hev, if_neg, ite_false]
          exact ih hmem'
  exact h p.deps (f v) hd

theorem bf_le_succ (p : Problem) (w : Dependence → Int) (k v : Nat) :
    bf p w k v ≤ bf p w (k + 1) v :=
  le_relaxW p w (bf p w k) v

theorem bf_nonneg (p : Problem) (w : Dependence → Int) (k : Nat) (v : Nat) :
    0 ≤ bf p w k v := by
  induction k with
  | zero => exact le_refl 0
  | succ k ih => exact le_trans ih (bf_le_succ p w k v)

theorem relaxW_cases (p : Problem) (w : Dependence → Int) (f : Nat → Int) (v : Nat) :
    relaxW p w f v = f v ∨
      ∃ d ∈ p.deps, d.dst = v ∧ relaxW p w f v = f d.src + w d := by
  unfold relaxW
  have h : ∀ (l : List Dependence) (b : Int),
      l.foldr (fun d acc => if d.dst = v then max acc (f d.src + w d) else acc) b = b ∨
      ∃ d ∈ l, d.dst = v ∧
        l.foldr (fun d acc => if d.dst = v then max acc (f d.src + w d) else acc) b =
          f d.src + w d := by
    intro l b
    induction l with
    | nil => exact Or.inl rfl
    | cons e t ih =>
      simp only [List.foldr_cons]
      by_cases hev : e.dst = v
      · simp only [hev, if_pos]
        rcases max_choice (t.foldr (fun d acc => if d.dst = v then max acc (f d.src + w d) else acc) b)
            (f e.src + w e) with hm | hm
        · rw [hm]
          rcases ih with h | ⟨d, hdm, hdv, hde⟩
          · exact Or.inl h
          · exact Or.inr ⟨d, List.mem_cons_of_mem e hdm, hdv, hde⟩
        · rw [hm]
          exact Or.inr ⟨e, List.mem_cons_self e t, hev, rfl⟩
      · simp only [hev, if_neg, ite_false]
        rcases ih with h | ⟨d, hdm, hdv, hde⟩
        · exact Or.inl h
        · exact Or.inr ⟨d, List.mem_cons_of_mem e hdm, hdv, hde⟩
  exact h p.deps (f v)

theorem weight_le_bf {p : Problem} {w : Dependence → Int} :
    ∀ {k : Nat} {es : List Dependence} {u v : Nat},
      IsWalkFrom p u v es → es.length ≤ k → weightW w es ≤ bf p w k v := by
  intro k
  induction k with
  | zero =>
    intro es u v hw hlen
    have : es = [] := List.eq_nil_of_length_eq_zero (Nat.le_zero.1 hlen)
    subst this
    cases hw
    exact le_refl 0
  | succ k ih =>
    intro es u v hw hlen
    rcases List.eq_nil_or_concat es with rfl | ⟨es', d, hc⟩
    · cases hw
      exact bf_nonneg p w (k + 1) _
    · rw [List.concat_eq_append] at hc
      subst hc
      obtain ⟨m, hw1, hw2⟩ := isWalkFrom_append.1 hw
      obtain ⟨hd, hsrc, hdst⟩ := hw2
      have hlen' : es'.length ≤ k := by
        simp only [List.length_append, List.length_cons, List.length_nil] at hlen
        omega
      have h1 : weightW w es' ≤ bf p w k m := ih hw1 hlen'
      have h2 : bf p w k d.src + w d ≤ relaxW p w (bf p w k) v :=
        edge_le_relaxW w (bf p w k) hd hdst
      have h3 : weightW w (es' ++ [d]) = weightW w es' + w d := by
        simp [weightW]
      rw [h3]
      calc weightW w es' + w d ≤ bf p w k m + w d := by omega
        _ = bf p w k d.src + w d := by rw [hsrc]
        _ ≤ bf p w (k + 1) v := h2

theorem bf_exists_walk (p : Problem) (w : Dependence → Int) :
    ∀ (k v : Nat), ∃ u es, IsWalkFrom p u v es ∧ es.length ≤ k ∧
      weightW w es = bf p w k v := by
  intro k
  induction k with
  | zero =>
    intro v
    exact ⟨v, [], rfl, Nat.le_refl 0, rfl⟩
  | succ k ih =>
    intro v
    rcases relaxW_cases p w (bf p w k) v with heq | ⟨d, hd, hdst, heq⟩
    · obtain ⟨u, es, hw, hlen, hwt⟩ := ih v
      refine ⟨u, es, hw, le_trans hlen (Nat.le_succ k), ?_⟩
      rw [hwt]
      exact heq.symm
    · obtain ⟨u, es, hw, hlen, hwt⟩ := ih d.src
      refine ⟨u, es ++ [d], isWalkFrom_append.2 ⟨d.src, hw, hd, rfl, hdst⟩, ?_, ?_⟩
      · simp only [List.length_append, List.length_cons, List.length_nil]
        omega
      · have h3 : weightW w (es ++ [d]) = weightW w es + w d := by
          simp [weightW]
        rw [h3, hwt]
        exact heq.symm

/-- If all closed walks have nonpositive weight, the Bellman-Ford values
after `numOps` rounds satisfy every difference constraint. -/
theorem bf_feasible {p : Problem} (hwf : WellFormed p) (w : Dependence → Int)
    (hcl : ∀ y es, IsWalkFrom p y y es → weightW w es ≤ 0) :
    ∀ d ∈ p.deps, bf p w (numOps p) d.src + w d ≤ bf p w (numOps p) d.dst := by
  intro d hd
  obtain ⟨u, es, hw, hlen, hwt⟩ := bf_exists_walk p w (numOps p) d.src
  have hwalk2 : IsWalkFrom p u d.dst (es ++ [d]) :=
    isWalkFrom_append.2 ⟨d.src, hw, hd, rfl, rfl⟩
  obtain ⟨es', hw', hlen', hge⟩ := walk_shorten hwf w hcl hwalk2
  have h3 := @weight_le_bf p w (numOps p) es' u d.dst hw' hlen'
  have h4 : weightW w (es ++ [d]) = weightW w es + w d := by
    simp [weightW]
  omega

/-- The weight of a walk in the cyclic difference system. -/
theorem weight_cyclic (p : Problem) (II : Nat) :
    ∀ es : List Dependence,
      weightW (cyclicWeight p II) es =
        (latSum p es : Int) - (II : Int) * (distSum es : Int) := by
  intro es
  induction es with
  | nil => simp [weightW, latSum, distSum]
  | cons d t ih =>
    simp only [weightW, List.map_cons, List.sum_cons, latSum, distSum] at ih ⊢
    rw [ih, cyclicWeight]
    push_cast
    ring

/-- The cyclic constraint system is satisfiable at `II` exactly when every
closed walk obeys the latency-distance bound. -/
theorem cyclic_feasible_iff {p : Problem} (hwf : WellFormed p) (II : Nat) :
    (∃ x : Nat → Nat, cyclicFeasible p II x) ↔
      (∀ u es, IsWalkFrom p u u es → latSum p es ≤ II * distSum es) := by
  constructor
  · rintro ⟨x, hx⟩ u es hw
    exact cycle_bound hx hw
  · intro hcl
    have hclZ : ∀ y es, IsWalkFrom p y y es → weightW (cyclicWeight p II) es ≤ 0 := by
      intro y es hw
      rw [weight_cyclic]
      have hlat : ((latSum p es : Nat) : Int) ≤ ((II * distSum es : Nat) : Int) :=
        Int.ofNat_le.2 (hcl y es hw)
      push_cast at hlat
      exact sub_nonpos.2 hlat
    have hfeas := bf_feasible hwf (cyclicWeight p II) hclZ
    refine ⟨fun v => (bf p (cyclicWeight p II) (numOps p) v).toNat, ?_⟩
    intro d hd
    show (bf p (cyclicWeight p II) (numOps p) d.src).toNat + latOf p d.src ≤
      (bf p (cyclicWeight p II) (numOps p) d.dst).toNat + II * d.distance
    have h1 := hfeas d hd
    have h2 := bf_nonneg p (cyclicWeight p II) (numOps p) d.src
    have h3 := bf_nonneg p (cyclicWeight p II) (numOps p) d.dst
    have hw_eq : cyclicWeight p II d =
        (latOf p d.src : Int) - (II : Int) * (d.distance : Int) := rfl
    rw [hw_eq] at h1
    have hc : ((II * d.distance : Nat) : Int) = (II : Int) * (d.distance : Int) := by
      push_cast; ring
    rw [← hc] at h1
    omega

end CirctSpec

namespace CirctSpec

theorem ceilDivNat_le_iff {a b c : Nat} (hb : 0 < b) :
    ceilDivNat a b ≤ c ↔ a ≤ c * b := by
  have h1 : ceilDivNat a b ≤ c ↔ a + b - 1 < (c + 1) * b := by
    unfold ceilDivNat
    rw [← Nat.lt_succ_iff, Nat.div_lt_iff_lt_mul hb]
  rw [h1, Nat.succ_mul]
  generalize c * b = m
  omega

theorem ceilDivNat_zero_left (b : Nat) : ceilDivNat 0 b = 0 := by
  cases b with
  | zero => rfl
  | succ b =>
    unfold ceilDivNat
    exact Nat.div_eq_of_lt (by omega)

theorem latOf_le_maxLat (p : Problem) (v : Nat) : latOf p v ≤ maxLat p := by
  unfold latOf oprTypeOf maxLat
  rcases Nat.lt_or_ge (oprOf p v) p.opTypes.length with hlt | hge
  · have hmem : p.opTypes.getD (oprOf p v) ⟨0, none⟩ ∈ p.opTypes := by
      rw [List.getD_eq_getElem?_getD, List.getElem?_eq_getElem hlt]
      exact List.getElem_mem _
    exact le_foldr_max (fun o => o.latency) hmem
  · rw [List.getD_eq_getElem?_getD, List.getElem?_eq_none (by omega)]
    exact Nat.zero_le _

theorem latSum_le_mul {p : Problem} {M : Nat} :
    ∀ {es : List Dependence}, (∀ d ∈ es, latOf p d.src ≤ M) →
      latSum p es ≤ es.length * M := by
  intro es
  induction es with
  | nil => intro _; simp [latSum]
  | cons d t ih =>
    intro h
    rw [latSum_cons, List.length_cons, Nat.succ_mul]
    have h1 := h d (List.mem_cons_self d t)
    have h2 := ih (fun e he => h e (List.mem_cons_of_mem d he))
    omega

/-- Every closed walk of a well-formed problem without an infeasible cycle
satisfies the latency-distance bound at `II = cyclicBound`. -/
theorem cyclicBound_bound {p : Problem} (hwf : WellFormed p)
    (hnbad : ¬∃ es, IsCycle p es ∧ distSum es = 0 ∧ 0 < latSum p es) :
    ∀ u es, IsWalkFrom p u u es → latSum p es ≤ cyclicBound p * distSum es := by
  have hshort : ∀ y es, IsWalkFrom p y y es → es.length ≤ numOps p →
      weightW (cyclicWeight p (cyclicBound p)) es ≤ 0 := by
    intro y es hw hlen
    rw [weight_cyclic]
    rcases Nat.eq_zero_or_pos (distSum es) with hdz | hdp
    · have hlz : latSum p es = 0 := by
        by_contra hnz
        rcases List.eq_nil_or_concat es with rfl | ⟨es', d, hc⟩
        · exact hnz rfl
        · refine hnbad ⟨es, ⟨?_, y, hw⟩, hdz, Nat.pos_of_ne_zero hnz⟩
          rw [hc]
          simp
      rw [hdz, hlz]
      simp
    · have hlat1 : latSum p es ≤ es.length * maxLat p :=
        latSum_le_mul (fun d _ => latOf_le_maxLat p d.src)
      have hlat2 : es.length * maxLat p ≤ numOps p * maxLat p :=
        Nat.mul_le_mul_right _ hlen
      have hlat3 : latSum p es < cyclicBound p := by
        unfold cyclicBound
        omega
      have hlat4 : latSum p es ≤ cyclicBound p * distSum es := by
        have h5 : cyclicBound p ≤ cyclicBound p * distSum es :=
          Nat.le_mul_of_pos_right _ hdp
        omega
      have h6 : ((latSum p es : Nat) : Int) ≤ ((cyclicBound p * distSum es : Nat) : Int) :=
        Int.ofNat_le.2 hlat4
      push_cast at h6
      exact sub_nonpos.2 h6
  have hcl := closed_nonpos hwf _ hshort
  intro u es hw
  have h := hcl u es hw
  rw [weight_cyclic] at h
  have h2 := sub_nonpos.1 h
  exact_mod_cast h2

end CirctSpec

/-- Claim C5: the cyclic simplex variant fails (`InfeasibleCycle`) exactly
when some cycle of the dependence graph has zero total distance and positive
total latency; for every other validated cyclic problem a finite initiation
interval (and optimal schedule) exists. -/
theorem claim5_infeasible_cycle {p : CirctSpec.Problem} {lastOp : Nat}
    (hval : CirctSpec.validate p = none) :
    (∃ II x, CirctSpec.cyclicSimplexSolves p lastOp II x) ↔
      ¬∃ es, CirctSpec.IsCycle p es ∧ CirctSpec.distSum es = 0 ∧
        0 < CirctSpec.latSum p es := by
  classical
  have hwf := (CirctSpec.validate_none_iff p).1 hval
  constructor
  · rintro ⟨II, x, _, hfeas, _, _⟩ ⟨es, ⟨_, u, hw⟩, hdz, hlpos⟩
    have hb := CirctSpec.cycle_bound hfeas hw
    rw [hdz, Nat.mul_zero] at hb
    omega
  · intro hnbad
    have hrhs := CirctSpec.cyclicBound_bound hwf hnbad
    obtain ⟨x, hx⟩ := (CirctSpec.cyclic_feasible_iff hwf (CirctSpec.cyclicBound p)).2 hrhs
    have hII₀pos : 1 ≤ CirctSpec.cyclicBound p := by
      unfold CirctSpec.cyclicBound
      omega
    have hS : ∃ II, 1 ≤ II ∧ ∃ x, CirctSpec.cyclicFeasible p II x :=
      ⟨CirctSpec.cyclicBound p, hII₀pos, x, hx⟩
    obtain ⟨hII₁pos, x₁, hx₁⟩ := Nat.find_spec hS
    have hT : ∃ t, ∃ y, CirctSpec.cyclicFeasible p (Nat.find hS) y ∧ y lastOp = t :=
      ⟨x₁ lastOp, x₁, hx₁, rfl⟩
    obtain ⟨x₂, hx₂, hx₂t⟩ := Nat.find_spec hT
    refine ⟨Nat.find hS, x₂, hII₁pos, hx₂, ?_, ?_⟩
    · intro II' x' hII' hx'
      by_contra hlt
      exact Nat.find_min hS (by omega) ⟨hII', x', hx'⟩
    · intro x' hx'
      rw [hx₂t]
      by_contra hlt
      exact Nat.find_min hT (by omega) ⟨x', hx', rfl⟩

/-- Witness for C5: the two-operation zero-distance cycle with latency 1 each
admits no initiation interval at all. -/
theorem claim5_infeasible_cycle_witness :
    CirctSpec.validate CirctSpec.exInfeasible = none ∧
    ¬∃ II x, CirctSpec.cyclicSimplexSolves CirctSpec.exInfeasible 1 II x := by
  have hval : CirctSpec.validate CirctSpec.exInfeasible = none := by decide
  refine ⟨hval, fun h => ?_⟩
  have hbad : ∃ es, CirctSpec.IsCycle CirctSpec.exInfeasible es ∧
      CirctSpec.distSum es = 0 ∧ 0 < CirctSpec.latSum CirctSpec.exInfeasible es := by
    refine ⟨[⟨0, 1, 0⟩, ⟨1, 0, 0⟩], ⟨by decide, 0, ?_⟩, by decide, by decide⟩
    refine ⟨by decide, rfl, by decide, rfl, rfl⟩
  exact (claim5_infeasible_cycle hval).1 h hbad

/-- Counterexample for C1: in the two-operation zero-latency cycle problem
`exZeroLat` the cyclic variant computes initiation interval 1 (the smallest
positive feasible interval), but every cycle has `ceil(latSum/distSum) = 0`,
so the computed interval is not the ceiling of the maximum cycle ratio. -/
theorem claim1_min_ii_counterexample :
    CirctSpec.cyclicSimplexSolves CirctSpec.exZeroLat 1 1 (fun _ => 0) ∧
    ¬((∀ es, CirctSpec.IsCycle CirctSpec.exZeroLat es →
        CirctSpec.ceilRatio CirctSpec.exZeroLat es ≤ 1) ∧
      (∃ es, CirctSpec.IsCycle CirctSpec.exZeroLat es ∧
        CirctSpec.ceilRatio CirctSpec.exZeroLat es = 1)) := by
  constructor
  · refine ⟨le_refl 1, ?_, fun II' x' h _ => h, fun x' _ => Nat.zero_le _⟩
    intro d hd
    fin_cases hd <;> decide
  · rintro ⟨_, es, ⟨hne, u, hw⟩, hratio⟩
    have hlz : ∀ d ∈ es, CirctSpec.latOf CirctSpec.exZeroLat d.src = 0 := by
      intro d hd
      have hdm := CirctSpec.isWalkFrom_mem hw d hd
      fin_cases hdm <;> decide
    have hsum : CirctSpec.latSum CirctSpec.exZeroLat es = 0 := by
      apply List.sum_eq_zero
      intro x hx
      obtain ⟨d, hd, rfl⟩ := List.mem_map.1 hx
      exact hlz d hd
    rw [CirctSpec.ceilRatio, hsum, CirctSpec.ceilDivNat_zero_left] at hratio
    exact Nat.zero_ne_one hratio

/-- Claim C1 as amended: for every validated cyclic problem solved by the
cyclic simplex variant, the computed initiation interval is the maximum over
all cycles of `ceil(latSum/distSum)`, except that it is (at least) 1 when
that maximum is smaller — i.e. `II = max(1, max over cycles of
ceil(latSum/distSum))`. -/
theorem claim1_min_ii_amended {p : CirctSpec.Problem} {lastOp II : Nat}
    {x : Nat → Nat} (hval : CirctSpec.validate p = none)
    (hsolve : CirctSpec.cyclicSimplexSolves p lastOp II x) :
    (∀ es, CirctSpec.IsCycle p es → CirctSpec.ceilRatio p es ≤ II) ∧
    (II = 1 ∨ ∃ es, CirctSpec.IsCycle p es ∧ CirctSpec.ceilRatio p es = II) := by
  have hwf := (CirctSpec.validate_none_iff p).1 hval
  obtain ⟨hIIpos, hfeas, hmin, _⟩ := hsolve
  have hub : ∀ es, CirctSpec.IsCycle p es → CirctSpec.ceilRatio p es ≤ II := by
    rintro es ⟨hne, u, hw⟩
    have hb := CirctSpec.cycle_bound hfeas hw
    unfold CirctSpec.ceilRatio
    rcases Nat.eq_zero_or_pos (CirctSpec.distSum es) with hdz | hdp
    · rw [hdz, Nat.mul_zero] at hb
      have hz : CirctSpec.latSum p es = 0 := by omega
      rw [hdz, hz, CirctSpec.ceilDivNat_zero_left]
      exact Nat.zero_le II
    · exact (CirctSpec.ceilDivNat_le_iff hdp).2 hb
  refine ⟨hub, ?_⟩
  rcases Nat.lt_or_ge II 2 with h2 | h2
  · left; omega
  · right
    have hprev : ¬∃ x', CirctSpec.cyclicFeasible p (II - 1) x' := by
      rintro ⟨x', hx'⟩
      have := hmin (II - 1) x' (by omega) hx'
      omega
    have hnot : ¬∀ u es, CirctSpec.IsWalkFrom p u u es →
        CirctSpec.latSum p es ≤ (II - 1) * CirctSpec.distSum es := by
      intro hall
      exact hprev ((CirctSpec.cyclic_feasible_iff hwf (II - 1)).2 hall)
    push_neg at hnot
    obtain ⟨u, es, hw, hgt⟩ := hnot
    have hne : es ≠ [] := by
      rintro rfl
      simp [CirctSpec.latSum, CirctSpec.distSum] at hgt
    have hfeasb := CirctSpec.cycle_bound hfeas hw
    have hdp : 0 < CirctSpec.distSum es := by
      rcases Nat.eq_zero_or_pos (CirctSpec.distSum es) with hdz | hdp
      · rw [hdz, Nat.mul_zero] at hfeasb hgt
        omega
      · exact hdp
    refine ⟨es, ⟨hne, u, hw⟩, ?_⟩
    unfold CirctSpec.ceilRatio
    have hle : CirctSpec.ceilDivNat (CirctSpec.latSum p es) (CirctSpec.distSum es) ≤ II :=
      (CirctSpec.ceilDivNat_le_iff hdp).2 hfeasb
    have hge2 : ¬(CirctSpec.ceilDivNat (CirctSpec.latSum p es) (CirctSpec.distSum es) ≤ II - 1) := by
      rw [CirctSpec.ceilDivNat_le_iff hdp]
      generalize (II - 1) * CirctSpec.distSum es = m at hgt ⊢
      omega
    omega

/-- Witness for C1 (amended): on the two-operation cycle with latencies 2 and
distances 0 and 1 the minimum initiation interval is 4, which is attained by
a cycle of ratio `ceil(4/1) = 4`. -/
theorem claim1_min_ii_amended_witness :
    (∀ es, CirctSpec.IsCycle CirctSpec.exCycle4 es →
      CirctSpec.ceilRatio CirctSpec.exCycle4 es ≤ 4) ∧
    (4 = 1 ∨ ∃ es, CirctSpec.IsCycle CirctSpec.exCycle4 es ∧
      CirctSpec.ceilRatio CirctSpec.exCycle4 es = 4) := by
  have hval : CirctSpec.validate CirctSpec.exCycle4 = none := by decide
  have hwcycle : CirctSpec.IsWalkFrom CirctSpec.exCycle4 0 0
      [⟨0, 1, 0⟩, ⟨1, 0, 1⟩] := ⟨by decide, rfl, by decide, rfl, rfl⟩
  have hsolve : CirctSpec.cyclicSimplexSolves CirctSpec.exCycle4 1 4
      (fun v => if v = 1 then 2 else 0) := by
    refine ⟨by omega, ?_, ?_, ?_⟩
    · intro d hd
      fin_cases hd <;> decide
    · intro II' x' hII' hx'
      have hb := CirctSpec.cycle_bound hx' hwcycle
      have h1 : CirctSpec.latSum CirctSpec.exCycle4 [⟨0, 1, 0⟩, ⟨1, 0, 1⟩] = 4 := by decide
      have h2 : CirctSpec.distSum [(⟨0, 1, 0⟩ : CirctSpec.Dependence), ⟨1, 0, 1⟩] = 1 := by decide
      rw [h1, h2, Nat.mul_one] at hb
      exact hb
    · intro x' hx'
      have hc := hx' ⟨0, 1, 0⟩ (by decide)
      have h1 : CirctSpec.latOf CirctSpec.exCycle4 0 = 2 := by decide
      simp only [h1] at hc
      have h2 : (2 : Nat) ≤ x' 1 := by omega
      simpa using h2
  exact claim1_min_ii_amended hval hsolve

namespace CirctSpec

theorem runWith_fail {solve : Problem → Option (List Nat)} {s : ProblemState}
    (h : (runWith solve s).2 = false) : (runWith solve s).1 = s := by
  unfold runWith at h ⊢
  rcases hs : solve s.prob with _ | sched
  · rfl
  · rw [hs] at h
    simp at h

theorem runWith_idem (solve : Problem → Option (List Nat)) (s : ProblemState) :
    runWith solve (runWith solve s).1 = runWith solve s := by
  rcases hs : solve s.prob with _ | sched
  · simp [runWith, hs]
  · have hprob : (commitStarts s sched).prob = s.prob := rfl
    simp [runWith, hs, hprob, commitStarts]

theorem runCyclic_fail {s : ProblemState} {lastOp : Nat}
    (h : (runCyclic s lastOp).2 = false) : (runCyclic s lastOp).1 = s := by
  unfold runCyclic at h ⊢
  rcases hs : scheduleCyclicExec s.prob lastOp with _ | r
  · rfl
  · rw [hs] at h
    simp at h

theorem runCyclic_idem (s : ProblemState) (lastOp : Nat) :
    runCyclic (runCyclic s lastOp).1 lastOp = runCyclic s lastOp := by
  rcases hs : scheduleCyclicExec s.prob lastOp with _ | r
  · simp [runCyclic, hs]
  · simp [runCyclic, hs]

end CirctSpec

/-- Claim C7: none of the solver entry points mutates the per-operation
start-time fields on failure — on failure the problem state is returned
exactly as it was, and this holds for any solver run through the common
write-back harness. -/
theorem claim7_no_partial_mutation (s : CirctSpec.ProblemState) (lastOp : Nat) :
    ((CirctSpec.runASAP s).2 = false → (CirctSpec.runASAP s).1 = s) ∧
    ((CirctSpec.runBasicSimplex s lastOp).2 = false →
      (CirctSpec.runBasicSimplex s lastOp).1 = s) ∧
    ((CirctSpec.runCyclic s lastOp).2 = false →
      (CirctSpec.runCyclic s lastOp).1 = s) ∧
    ((CirctSpec.runShared s lastOp).2 = false →
      (CirctSpec.runShared s lastOp).1 = s) ∧
    (∀ solve, (CirctSpec.runWith solve s).2 = false →
      (CirctSpec.runWith solve s).1 = s) :=
  ⟨CirctSpec.runWith_fail, CirctSpec.runWith_fail, CirctSpec.runCyclic_fail,
   CirctSpec.runWith_fail, fun _ => CirctSpec.runWith_fail⟩

/-- Witness for C7: on a state holding an unsolvable problem (zero-distance
cycle) with pre-existing result fields, the failing ASAP run leaves the
state untouched. -/
theorem claim7_no_partial_mutation_witness :
    (CirctSpec.runASAP CirctSpec.exFailState).1 = CirctSpec.exFailState :=
  (claim7_no_partial_mutation CirctSpec.exFailState 0).1 (by decide)

/-- Claim C8: every solver entry point is deterministic — equal input states
yield identical outcomes, start times and initiation interval, and an
immediate re-solve of the already-solved state reproduces the result
exactly. -/
theorem claim8_deterministic (s t : CirctSpec.ProblemState) (lastOp : Nat)
    (h : s = t) :
    (CirctSpec.runASAP s = CirctSpec.runASAP t ∧
     CirctSpec.runBasicSimplex s lastOp = CirctSpec.runBasicSimplex t lastOp ∧
     CirctSpec.runCyclic s lastOp = CirctSpec.runCyclic t lastOp ∧
     CirctSpec.runShared s lastOp = CirctSpec.runShared t lastOp) ∧
    (CirctSpec.runASAP (CirctSpec.runASAP s).1 = CirctSpec.runASAP s ∧
     CirctSpec.runBasicSimplex (CirctSpec.runBasicSimplex s lastOp).1 lastOp =
       CirctSpec.runBasicSimplex s lastOp ∧
     CirctSpec.runCyclic (CirctSpec.runCyclic s lastOp).1 lastOp =
       CirctSpec.runCyclic s lastOp ∧
     CirctSpec.runShared (CirctSpec.runShared s lastOp).1 lastOp =
       CirctSpec.runShared s lastOp) := by
  subst h
  exact ⟨⟨rfl, rfl, rfl, rfl⟩,
    CirctSpec.runWith_idem _ s, CirctSpec.runWith_idem _ s,
    CirctSpec.runCyclic_idem s lastOp, CirctSpec.runWith_idem _ s⟩

/-- Witness for C8: re-running the ASAP entry point on the solved chain state
reproduces the result, and equal states give equal cyclic results. -/
theorem claim8_deterministic_witness :
    CirctSpec.runASAP (CirctSpec.runASAP CirctSpec.exState).1 =
      CirctSpec.runASAP CirctSpec.exState :=
  (claim8_deterministic CirctSpec.exState CirctSpec.exState 0 rfl).2.1

namespace CirctSpec

theorem countP_update {α : Type} {l : List α} {f g : α → Bool} {v : α}
    (hnd : l.Nodup) (hv : v ∈ l) (hfv : f v = false)
    (hcong : ∀ u ∈ l, u ≠ v → g u = f u) :
    l.countP g = l.countP f + (if g v then 1 else 0) := by
  induction l with
  | nil => cases hv
  | cons a tl ih =>
    rw [List.countP_cons, List.countP_cons]
    rcases List.mem_cons.1 hv with rfl | hv'
    · have htail : tl.countP g = tl.countP f := by
        refine List.countP_congr fun u hu => ?_
        have hne : u ≠ v := fun h => (List.nodup_cons.1 hnd).1 (h ▸ hu)
        rw [hcong u (List.mem_cons_of_mem v hu) hne]
      rw [htail, hfv]
      cases hgv : g v <;> simp [hgv]
    · have hav : a ≠ v := fun h => (List.nodup_cons.1 hnd).1 (h ▸ hv')
      have hga : g a = f a := hcong a (List.mem_cons_self a tl) hav
      rw [hga, ih (List.nodup_cons.1 hnd).2 hv'
        (fun u hu hne => hcong u (List.mem_cons_of_mem a hu) hne)]
      cases hfa : f a <;> cases hgv : g v <;> simp [hfa, hgv]

theorem occupiedCount_update {p : Problem} {st : Nat → Option Nat} {v t : Nat}
    (hv : v < numOps p) (hnone : st v = none) (opr c : Nat) :
    occupiedCount p (fun u => if u = v then some t else st u) opr c =
      occupiedCount p st opr c +
        (if oprOf p v = opr ∧ t ≤ c ∧ c < t + latOf p v then 1 else 0) := by
  unfold occupiedCount
  have h := countP_update (l := List.range (numOps p))
    (f := fun u => match st u with
      | some s => decide (oprOf p u = opr) && decide (s ≤ c) && decide (c < s + latOf p u)
      | none => false)
    (g := fun u => match (if u = v then some t else st u) with
      | some s => decide (oprOf p u = opr) && decide (s ≤ c) && decide (c < s + latOf p u)
      | none => false)
    (v := v) (List.nodup_range _) (List.mem_range.2 hv)
    (by simp [hnone]) ?_
  · rw [h]
    congr 1
    simp only [if_pos rfl]
    by_cases hcond : oprOf p v = opr ∧ t ≤ c ∧ c < t + latOf p v
    · obtain ⟨h1, h2, h3⟩ := hcond
      simp [h1, h2, h3]
    · rw [if_neg hcond]
      rcases Decidable.not_and_iff_or_not.1 hcond with h1 | h23
      · simp [h1]
      · rcases Decidable.not_and_iff_or_not.1 h23 with h2 | h3
        · simp [h2]
        · simp [h3]
  · intro u _ hne
    simp [hne]

theorem findSlot_some {p : Problem} {st : Nat → Option Nat} {v : Nat} :
    ∀ {fuel t₀ t : Nat}, findSlot p st v fuel t₀ = some t →
      t₀ ≤ t ∧ fitsAt p st v t = true := by
  intro fuel
  induction fuel with
  | zero => intro t₀ t h; simp [findSlot] at h
  | succ fuel ih =>
    intro t₀ t h
    unfold findSlot at h
    by_cases hfit : fitsAt p st v t₀ = true
    · rw [if_pos hfit] at h
      cases h
      exact ⟨le_refl _, hfit⟩
    · rw [if_neg hfit] at h
      obtain ⟨h1, h2⟩ := ih h
      exact ⟨by omega, h2⟩

theorem fitsAt_spec {p : Problem} {st : Nat → Option Nat} {v t k : Nat}
    (hfit : fitsAt p st v t = true)
    (hk : (p.opTypes.getD (oprOf p v) ⟨0, none⟩).limit = some k) :
    ∀ i < latOf p v, occupiedCount p st (oprOf p v) (t + i) < k := by
  intro i hi
  unfold fitsAt at hfit
  have hlim : limitOf p v = some k := hk
  rw [hlim] at hfit
  have := (List.all_eq_true.1 hfit) i (List.mem_range.2 hi)
  simpa using this

theorem le_asapBound {p : Problem} {st : Nat → Option Nat} {v : Nat}
    {d : Dependence} (hd : d ∈ incoming p v) {s' : Nat}
    (hs' : st d.src = some s') :
    s' + latOf p d.src ≤ asapBound p st v := by
  have h := le_foldr_max (fun d => ((st d.src).getD 0 + latOf p d.src)) hd
  simp only [hs', Option.getD_some] at h
  exact h

theorem sharedPlace_inv {p : Problem} {st st' : Nat → Option Nat} {v : Nat}
    (hv : v < numOps p) (hinv : SharedInv p st)
    (h : sharedPlace p st v = some st') :
    SharedInv p st' ∧ ∀ u s, st u = some s → st' u = some s := by
  obtain ⟨hP3, hP1, hP2⟩ := hinv
  unfold sharedPlace at h
  by_cases hplaced : (st v).isSome = true
  · rw [if_pos hplaced] at h
    cases h
    exact ⟨⟨hP3, hP1, hP2⟩, fun u s hs => hs⟩
  · rw [if_neg hplaced] at h
    have hnone : st v = none := Option.not_isSome_iff_eq_none.1 hplaced
    by_cases hready : allPredsScheduled p st v = true
    · rw [if_pos hready] at h
      rcases hslot : findSlot p st v (slotFuel p st + asapBound p st v)
          (asapBound p st v) with _ | t
      · rw [hslot] at h; cases h
      · rw [hslot] at h
        have hst' : st' = fun u => if u = v then some t else st u := by
          cases h; rfl
        obtain ⟨hbound, hfit⟩ := findSlot_some hslot
        have hgrow : ∀ u s, st u = some s → st' u = some s := by
          intro u s hs
          rw [hst']
          have hne : u ≠ v := fun he => by rw [he, hnone] at hs; cases hs
          simp [hne, hs]
        refine ⟨⟨?_, ?_, ?_⟩, hgrow⟩
        · intro u hu
          rw [hst']
          have hne : u ≠ v := by omega
          simp only [hne, if_false, ite_false]
          exact hP3 u hu
        · intro u s hs d hd
          rw [hst'] at hs
          have hs2 : (if u = v then some t else st u) = some s := hs
          by_cases huv : u = v
          · rw [if_pos huv] at hs2
            subst huv
            have hsome := (List.all_eq_true.1 hready) d hd
            rcases Option.isSome_iff_exists.1 hsome with ⟨s', hs'⟩
            refine ⟨s', hgrow d.src s' hs', ?_⟩
            have := le_asapBound hd hs'
            have ht : t = s := Option.some.inj hs2
            omega
          · rw [if_neg huv] at hs2
            obtain ⟨s', hs', hb⟩ := hP1 u s hs2 d hd
            exact ⟨s', hgrow d.src s' hs', hb⟩
        · intro oIdx k hk c
          rw [hst', occupiedCount_update hv hnone]
          by_cases hcond : oprOf p v = oIdx ∧ t ≤ c ∧ c < t + latOf p v
          · rw [if_pos hcond]
            obtain ⟨h1, h2, h3⟩ := hcond
            have hk' : (p.opTypes.getD (oprOf p v) ⟨0, none⟩).limit = some k := by
              rw [h1]; exact hk
            have hocc := fitsAt_spec hfit hk' (c - t) (by omega)
            have hct : t + (c - t) = c := by omega
            rw [hct] at hocc
            rw [← h1]
            omega
          · rw [if_neg hcond]
            have := hP2 oIdx k hk c
            omega
    · rw [if_neg hready] at h
      cases h
      exact ⟨⟨hP3, hP1, hP2⟩, fun u s hs => hs⟩

theorem foldl_bind_none {p : Problem} (l : List Nat) :
    l.foldl (fun acc v => acc.bind (fun s => sharedPlace p s v))
      (none : Option (Nat → Option Nat)) = none := by
  induction l with
  | nil => rfl
  | cons a tl ih => simpa using ih

theorem sharedFold_inv {p : Problem} :
    ∀ (l : List Nat) (st st' : Nat → Option Nat), (∀ v ∈ l, v < numOps p) →
      SharedInv p st →
      l.foldl (fun acc v => acc.bind (fun s => sharedPlace p s v)) (some st) =
        some st' →
      SharedInv p st' ∧ ∀ u s, st u = some s → st' u = some s := by
  intro l
  induction l with
  | nil =>
    intro st st' _ hinv h
    cases h
    exact ⟨hinv, fun u s hs => hs⟩
  | cons a tl ih =>
    intro st st' hmem hinv h
    simp only [List.foldl_cons] at h
    have hh : (some st).bind (fun s => sharedPlace p s a) = sharedPlace p st a := rfl
    rw [hh] at h
    rcases hpl : sharedPlace p st a with _ | st₁
    · rw [hpl] at h
      rw [foldl_bind_none] at h
      cases h
    · rw [hpl] at h
      obtain ⟨hinv₁, hgrow₁⟩ :=
        sharedPlace_inv (hmem a (List.mem_cons_self a tl)) hinv hpl
      obtain ⟨hinv₂, hgrow₂⟩ :=
        ih st₁ st' (fun v hv => hmem v (List.mem_cons_of_mem a hv)) hinv₁ h
      exact ⟨hinv₂, fun u s hs => hgrow₂ u s (hgrow₁ u s hs)⟩

theorem sharedIter_inv {p : Problem} :
    ∀ {k : Nat} {st : Nat → Option Nat}, sharedIter p k = some st →
      SharedInv p st := by
  intro k
  induction k with
  | zero =>
    intro st h
    cases h
    refine ⟨fun v _ => rfl, ?_, ?_⟩
    · intro v t h d _
      exact Option.noConfusion h
    · intro oIdx k hk c
      have hz : occupiedCount p (fun _ => (none : Option Nat)) oIdx c = 0 := by
        unfold occupiedCount
        exact List.countP_eq_zero.2 (fun a _ h => Bool.noConfusion h)
      omega
  | succ k ih =>
    intro st h
    have h' : (sharedIter p k).bind (fun st => sharedRound p st) = some st := h
    rcases hk : sharedIter p k with _ | st₀
    · rw [hk] at h'; cases h'
    · rw [hk] at h'
      have h'' : sharedRound p st₀ = some st := h'
      unfold sharedRound at h''
      exact (sharedFold_inv (List.range (numOps p)) st₀ st
        (fun v hv => List.mem_range.1 hv) (ih hk) h'').1

theorem scheduleShared_some {p : Problem} {lastOp : Nat} {sched : List Nat}
    (h : scheduleShared p lastOp = some sched) :
    ∃ st, sharedIter p (numOps p) = some st ∧ SharedInv p st ∧
      (∀ v < numOps p, st v = some (sched.getD v 0)) := by
  unfold scheduleShared at h
  rcases hit : sharedIter p (numOps p) with _ | st
  · rw [hit] at h; cases h
  · rw [hit] at h
    have h2 : (if ((List.range (numOps p)).all fun v => (st v).isSome) = true then
        some ((List.range (numOps p)).map (fun v => (st v).getD 0))
      else none) = some sched := h
    by_cases hall : ((List.range (numOps p)).all fun v => (st v).isSome) = true
    · rw [if_pos hall] at h2
      have hsched : sched = (List.range (numOps p)).map (fun v => (st v).getD 0) :=
        (Option.some.inj h2).symm
      refine ⟨st, rfl, sharedIter_inv hit, fun v hv => ?_⟩
      have hsome := (List.all_eq_true.1 hall) v (List.mem_range.2 hv)
      rcases Option.isSome_iff_exists.1 hsome with ⟨s, hs⟩
      rw [hsched, getD_map_range hv, hs]
      rfl
    · rw [if_neg hall] at h2
      cases h2

/-- The shared-pipelined heuristic's schedule respects every precedence
constraint with a registered destination. -/
theorem scheduleShared_precedence {p : Problem} {lastOp : Nat}
    {sched : List Nat} (h : scheduleShared p lastOp = some sched)
    {d : Dependence} (hd : d ∈ p.deps) (hsrc : d.src < numOps p)
    (hdst : d.dst < numOps p) :
    sched.getD d.src 0 + latOf p d.src ≤ sched.getD d.dst 0 := by
  obtain ⟨st, _, ⟨_, hP1, _⟩, hval⟩ := scheduleShared_some h
  have hdstv := hval d.dst hdst
  obtain ⟨s', hs', hb⟩ := hP1 d.dst (sched.getD d.dst 0) hdstv d (mem_incoming.2 ⟨hd, rfl⟩)
  have hsrcv := hval d.src hsrc
  rw [hsrcv] at hs'
  have : sched.getD d.src 0 = s' := Option.some.inj hs'
  omega

end CirctSpec

/-- Claim C6: after a successful shared-pipelined solve, for every operator
type with a finite limit `k` at most `k` operations of that type occupy any
cycle with their `[start, start+latency)` windows, and all precedence
constraints of the acyclic problem hold. -/
theorem claim6_shared_resource_limit {p : CirctSpec.Problem} {lastOp : Nat}
    {sched : List Nat} (hval : CirctSpec.validate p = none)
    (h : CirctSpec.scheduleShared p lastOp = some sched) :
    (∀ oIdx k, (p.opTypes.getD oIdx ⟨0, none⟩).limit = some k →
      ∀ c, CirctSpec.occupiedAt p sched oIdx c ≤ k) ∧
    (∀ d ∈ p.deps,
      sched.getD d.src 0 + CirctSpec.latOf p d.src ≤ sched.getD d.dst 0) := by
  have hwf := (CirctSpec.validate_none_iff p).1 hval
  obtain ⟨st, _, hinv, hv⟩ := CirctSpec.scheduleShared_some h
  constructor
  · intro oIdx k hk c
    have hcong : CirctSpec.occupiedAt p sched oIdx c =
        CirctSpec.occupiedCount p st oIdx c := by
      unfold CirctSpec.occupiedAt CirctSpec.occupiedCount
      refine List.countP_congr fun u hu => ?_
      rw [hv u (List.mem_range.1 hu)]
    rw [hcong]
    exact hinv.2.2 oIdx k hk c
  · intro d hd
    exact CirctSpec.scheduleShared_precedence h hd (hwf.1 d hd).1 (hwf.1 d hd).2

/-- Witness for C6: with one operator type of limit 1 and two independent
unit-latency operations the heuristic serializes them (`[0, 1]`), and at
cycle 0 only one operation of that type is running. -/
theorem claim6_shared_resource_limit_witness :
    CirctSpec.scheduleShared CirctSpec.exShared 0 = some [0, 1] ∧
    CirctSpec.occupiedAt CirctSpec.exShared [0, 1] 0 0 ≤ 1 := by
  have hsched : CirctSpec.scheduleShared CirctSpec.exShared 0 = some [0, 1] := by
    decide
  exact ⟨hsched,
    (claim6_shared_resource_limit (by decide) hsched).1 0 1 (by decide) 0⟩

/-- Claim C4: after any successful solve, every distance-0 dependence
satisfies `start(dst) ≥ start(src) + latency(src)`, and after a successful
cyclic solve every dependence with positive distance additionally satisfies
`start(dst) + II*distance ≥ start(src) + latency(src)` — across all four
entry points. -/
theorem claim4_dependence_satisfaction (p : CirctSpec.Problem) :
    (∀ sched, CirctSpec.validate p = none →
      CirctSpec.scheduleASAP p = some sched →
      ∀ d ∈ p.deps, d.distance = 0 →
        sched.getD d.src 0 + CirctSpec.latOf p d.src ≤ sched.getD d.dst 0) ∧
    (∀ lastOp x, CirctSpec.basicSimplexSolves p lastOp x →
      ∀ d ∈ p.deps, d.distance = 0 →
        x d.src + CirctSpec.latOf p d.src ≤ x d.dst) ∧
    (∀ lastOp II x, CirctSpec.cyclicSimplexSolves p lastOp II x →
      ∀ d ∈ p.deps,
        (d.distance = 0 → x d.src + CirctSpec.latOf p d.src ≤ x d.dst) ∧
        (0 < d.distance →
          x d.src + CirctSpec.latOf p d.src ≤ x d.dst + II * d.distance)) ∧
    (∀ lastOp sched, CirctSpec.validate p = none →
      CirctSpec.scheduleShared p lastOp = some sched →
      ∀ d ∈ p.deps, d.distance = 0 →
        sched.getD d.src 0 + CirctSpec.latOf p d.src ≤ sched.getD d.dst 0) := by
  refine ⟨?_, ?_, ?_, ?_⟩
  · intro sched hval hasap d hd _
    have hwf := (CirctSpec.validate_none_iff p).1 hval
    exact CirctSpec.scheduleASAP_precedence hasap hd (hwf.1 d hd).2
  · intro lastOp x hx d hd _
    exact hx.1 d hd
  · intro lastOp II x hx d hd
    have hc := hx.2.1 d hd
    constructor
    · intro hz
      rw [hz, Nat.mul_zero, Nat.add_zero] at hc
      exact hc
    · intro _
      exact hc
  · intro lastOp sched hval hsh d hd _
    have hwf := (CirctSpec.validate_none_iff p).1 hval
    exact CirctSpec.scheduleShared_precedence hsh hd (hwf.1 d hd).1 (hwf.1 d hd).2

/-- Witness for C4: on the chain scenario the ASAP schedule `[0,1,3]`
satisfies the precedence constraint of the dependence from operation 0 to
operation 1. -/
theorem claim4_dependence_satisfaction_witness :
    [0, 1, 3].getD 0 0 + CirctSpec.latOf CirctSpec.exChain 0 ≤
      [0, 1, 3].getD 1 0 :=
  (claim4_dependence_satisfaction CirctSpec.exChain).1 [0, 1, 3] (by decide)
    (by decide) ⟨0, 1, 0⟩ (by decide) rfl
